import Mathlib

/-!
Verification development for the traffic-assignment repository
(`IA.py`, `AON.py`, `calculate.py`, `graph.py`).

Shallow embedding conventions:
* Python floats are modelled as `ℚ` (exact rational arithmetic).
* `float('inf')` is modelled as `none : Option ℚ`; a finite cost `q` is
  `some q`.
* Node names are modelled as natural numbers (the example scenario uses
  A = 0, B = 1, C = 2).
* A `networkx.DiGraph`'s edge dictionary is modelled as an association
  list keyed by the ordered pair of endpoints; lookups and updates touch
  the first matching entry, and a key occurs at most once for graphs
  built by the embedded constructors.
* Python exceptions that a claim mentions are modelled with `Except`.
-/

/- Mathlib marks the rational-number operations irreducible (proofs are meant
to go through `norm_num`); the concrete scenario theorems below instead
evaluate the embedded algorithms with `decide`, so the default reducibility of
these operations is restored for this file.  This only affects elaboration:
the kernel ignores reducibility attributes. -/
attribute [local semireducible] Rat.add Rat.mul Rat.sub Rat.inv Rat.ofScientific Nat.gcd

/-- Node identifiers (networkx node names; the scenarios use A=0, B=1, C=2). -/
abbrev NodeId := Nat

/-- A directed edge key `(begin, end)`. -/
abbrev EdgeKey := NodeId × NodeId

/-- First-match lookup in an association list (Python dict access). -/
def alookup {α : Type} : List (EdgeKey × α) → EdgeKey → Option α
  | [], _ => none
  | (k', v) :: rest, k => if k' = k then some v else alookup rest k

/-- Update the first entry with key `k` by `f` (Python dict item mutation);
no entry with key `k` leaves the list unchanged. -/
def aupdate {α : Type} (f : α → α) : List (EdgeKey × α) → EdgeKey → List (EdgeKey × α)
  | [], _ => []
  | (k', v) :: rest, k =>
    if k' = k then (k', f v) :: rest else (k', v) :: aupdate f rest k

/-- The keys of an association list, in order. -/
def keysOf {α : Type} (es : List (EdgeKey × α)) : List EdgeKey :=
  es.map (fun e => e.1)

/-- `networkx.DiGraph.add_edge`: overwrite the attributes when the edge
exists, append it otherwise. -/
def addEdge {α : Type} (es : List (EdgeKey × α)) (k : EdgeKey) (d : α) :
    List (EdgeKey × α) :=
  if (alookup es k).isSome then aupdate (fun _ => d) es k else es ++ [(k, d)]

/-- `networkx.DiGraph.add_node` via `add_edge`: endpoints become nodes when
not already present (insertion order preserved). -/
def addNodeIfAbsent (ns : List NodeId) (u : NodeId) : List NodeId :=
  if ns.contains u then ns else ns ++ [u]

/-- Edge attributes kept by `IAAssignment.__init__` (`IA.py`):
`free_flow_time`, `capacity`, `flow`, `cost` (`none` = `float('inf')`),
`original_cost`. -/
structure IAEdge where
  free_flow_time : ℚ
  capacity : ℚ
  flow : ℚ
  cost : Option ℚ
  original_cost : ℚ
deriving DecidableEq

/-- The mutable network state of an `IAAssignment`: node list plus the edge
dictionary. -/
structure IANet where
  nodes : List NodeId
  edges : List (EdgeKey × IAEdge)
deriving DecidableEq

/-- The fresh attribute record one direction of an edge gets in
`IAAssignment.__init__`: flow 0, cost and original cost equal to the free
flow time. -/
def mkIAEdge (t0 cap : ℚ) : IAEdge :=
  { free_flow_time := t0, capacity := cap, flow := 0, cost := some t0
    original_cost := t0 }

/-- One pass of the edge loop in `IAAssignment.__init__` (`IA.py` lines
23-40): for the spec `(u, v, free_flow_time, capacity)` add the edge `u→v`
AND the reverse edge `v→u`, both with flow 0 and cost equal to the free flow
time. -/
def ia_add_edge_spec (net : IANet) (s : NodeId × NodeId × ℚ × ℚ) : IANet :=
  { nodes := addNodeIfAbsent (addNodeIfAbsent net.nodes s.1) s.2.1
    edges := addEdge
      (addEdge net.edges (s.1, s.2.1) (mkIAEdge s.2.2.1 s.2.2.2))
      (s.2.1, s.1) (mkIAEdge s.2.2.1 s.2.2.2) }

/-- `IAAssignment.__init__` (`IA.py` lines 10-40): start from the node
dictionary's keys and run the edge loop. -/
def IAAssignment_init (nodeIds : List NodeId)
    (edgeSpecs : List (NodeId × NodeId × ℚ × ℚ)) : IANet :=
  edgeSpecs.foldl ia_add_edge_spec { nodes := nodeIds, edges := [] }

/-- The BPR volume-delay formula used by `IAAssignment.update_link_impedance`
and `AONAssignment.calculate_link_performance`:
`t = t0 * (1 + alpha * (flow / capacity) ^ beta)`. -/
def bpr_travel_time (alpha : ℚ) (beta : ℕ) (t0 capacity flow : ℚ) : ℚ :=
  t0 * (1 + alpha * (flow / capacity) ^ beta)

/-- The per-edge impedance computed by `IAAssignment.update_link_impedance`:
the BPR value when `capacity > 0`, `float('inf')` (modelled `none`)
otherwise. -/
def ia_edge_impedance (alpha : ℚ) (beta : ℕ) (d : IAEdge) : Option ℚ :=
  if d.capacity > 0 then
    some (bpr_travel_time alpha beta d.free_flow_time d.capacity d.flow)
  else none

/-- The update one edge receives in `update_link_impedance`: only the `cost`
attribute changes. -/
def ia_update_edge (alpha : ℚ) (beta : ℕ) (d : IAEdge) : IAEdge :=
  { d with cost := ia_edge_impedance alpha beta d }

/-- `IAAssignment.update_link_impedance` (`IA.py` lines 42-61): set every
edge's `cost` from its current `flow` via the BPR function. -/
def update_link_impedance (net : IANet) (alpha : ℚ) (beta : ℕ) : IANet :=
  { net with
    edges := net.edges.map (fun e => (e.1, ia_update_edge alpha beta e.2)) }

/-- Spec §4.2, stated from the spec's words for comparison with the code:
`travel_time(free_flow_time, capacity, flow, alpha, beta) =
free_flow_time * (1 + alpha * (flow/capacity)^beta)`, and `+infinity`
(`none`) when `capacity <= 0`. -/
def spec_travel_time (free_flow_time capacity flow alpha : ℚ) (beta : ℕ) :
    Option ℚ :=
  if capacity ≤ 0 then none
  else some (free_flow_time * (1 + alpha * (flow / capacity) ^ beta))

/-- `calculate.get_link_travel_time` (`calculate.py` lines 3-10): the legacy
impedance `t0 * (1 + Q/C) ** 2`; returns `t0` when the flow dictionary has no
entry for the edge; `C = 0` raises `ZeroDivisionError` (modelled as
`Except.error`). The nested flow dictionary is an association list keyed by
`(begin, end)` here. -/
def get_link_travel_time (flow : List (EdgeKey × ℚ)) (t0 C : ℚ)
    (nb ne : NodeId) : Except Unit ℚ :=
  match alookup flow (nb, ne) with
  | none => Except.ok t0
  | some Q =>
    if C = 0 then Except.error ()
    else Except.ok (t0 * (1 + Q / C) ^ 2)

/-! ## Shortest-path engine

`nx.shortest_path(..., weight='cost')` is Dijkstra over the current cost
field.  The embedding enumerates all simple paths and takes the one of
minimum total cost, preferring the earlier path in enumeration order on
ties; on instances with a unique shortest path this coincides with any
correct shortest-path algorithm.  Costs are `Option ℚ` with `none` = the
Python `float('inf')`. -/

/-- Sum of two costs; `float('inf')` absorbs. -/
def costAdd : Option ℚ → Option ℚ → Option ℚ
  | some a, some b => some (a + b)
  | _, _ => none

/-- Cost comparison with `none` as `+infinity`. -/
def costLeB : Option ℚ → Option ℚ → Bool
  | _, none => true
  | none, some _ => false
  | some a, some b => decide (a ≤ b)

/-- The successors of `u` in the edge dictionary, in insertion order. -/
def successors {α : Type} (es : List (EdgeKey × α)) (u : NodeId) :
    List NodeId :=
  (es.filter (fun e => e.1.1 == u)).map (fun e => e.1.2)

/-- All simple paths from `u` to `target` avoiding `visited`, with `fuel`
bounding the number of nodes a path may still visit. -/
def simplePathsAux {α : Type} (es : List (EdgeKey × α)) (target : NodeId) :
    ℕ → NodeId → List NodeId → List (List NodeId)
  | 0, _, _ => []
  | fuel + 1, u, visited =>
    if u = target then [[u]]
    else
      ((successors es u).filter (fun v => !(visited.contains v))).flatMap
        (fun v =>
          (simplePathsAux es target fuel v (u :: visited)).map
            (fun p => u :: p))

/-- Total cost of a path: sum of the traversed edges' costs (`costOf` reads
an edge's current cost). -/
def pathCost {α : Type} (costOf : α → Option ℚ) (es : List (EdgeKey × α)) :
    List NodeId → Option ℚ
  | u :: v :: rest =>
    costAdd
      (match alookup es (u, v) with
       | some d => costOf d
       | none => none)
      (pathCost costOf es (v :: rest))
  | _ => some 0

/-- Minimum-cost path among candidates, earlier candidate preferred on
ties. -/
def bestPath {α : Type} (costOf : α → Option ℚ) (es : List (EdgeKey × α)) :
    List (List NodeId) → Option (List NodeId × Option ℚ)
  | [] => none
  | p :: ps =>
    match bestPath costOf es ps with
    | none => some (p, pathCost costOf es p)
    | some (q, cq) =>
      let cp := pathCost costOf es p
      if costLeB cp cq then some (p, cp) else some (q, cq)

/-- Single-pair shortest path: the minimum-cost simple path and its cost, or
`([], none)` — the code's `([], float('inf'))` — when the target is
unreachable (`nx.NetworkXNoPath`). -/
def shortest_path_search {α : Type} (costOf : α → Option ℚ)
    (nodes : List NodeId) (es : List (EdgeKey × α)) (s t : NodeId) :
    List NodeId × Option ℚ :=
  match bestPath costOf es (simplePathsAux es t (nodes.length + 1) s []) with
  | none => ([], none)
  | some (p, c) => (p, c)

/-- `calculate_all_pairs_shortest_path` (both `IA.py` and `AON.py`): one
table entry per ordered pair of distinct nodes. -/
def all_pairs_shortest_path {α : Type} (costOf : α → Option ℚ)
    (nodes : List NodeId) (es : List (EdgeKey × α)) :
    List (EdgeKey × (List NodeId × Option ℚ)) :=
  nodes.flatMap
    (fun s =>
      (nodes.filter (fun t => !(t == s))).map
        (fun t => ((s, t), shortest_path_search costOf nodes es s t)))

/-- `IAAssignment.calculate_all_pairs_shortest_path` (`IA.py` lines 63-87),
weighting by the current `cost` field. -/
def ia_calculate_all_pairs (net : IANet) :
    List (EdgeKey × (List NodeId × Option ℚ)) :=
  all_pairs_shortest_path (fun d => d.cost) net.nodes net.edges

/-! ## Incremental assignment (`IA.py`) -/

/-- The flow-loading inner loop of `IAAssignment.assign_increment`
(`IA.py` lines 113-127): walk the path's consecutive edges; when the edge
exists add the incremental demand to the graph's `flow` AND to the
`incremental_flows` record; a missing edge only prints an error and is
skipped. -/
def ia_load_path :
    List (EdgeKey × IAEdge) → List (EdgeKey × ℚ) → List NodeId → ℚ →
    List (EdgeKey × IAEdge) × List (EdgeKey × ℚ)
  | es, fl, u :: v :: rest, inc =>
    if (alookup es (u, v)).isSome then
      ia_load_path (aupdate (fun d => { d with flow := d.flow + inc }) es (u, v))
        (aupdate (fun q => q + inc) fl (u, v)) (v :: rest) inc
    else ia_load_path es fl (v :: rest) inc
  | es, fl, _, _ => (es, fl)

/-- The per-OD-pair loop of `IAAssignment.assign_increment` (`IA.py` lines
102-129).  Skips non-positive demand, pairs absent from the shortest-path
table, and pairs whose stored path is empty (printing the no-path warning).
Besides the mutated edge dictionary and the `incremental_flows` record it
returns, as a ghost observation for stating conservation, the demand amount
routed for each processed demand entry (`demand * frac` when a path was
loaded, 0 when the pair was skipped). -/
def assign_increment_loop (table : List (EdgeKey × (List NodeId × Option ℚ)))
    (frac : ℚ) :
    List (EdgeKey × ℚ) → List (EdgeKey × IAEdge) → List (EdgeKey × ℚ) →
    List (EdgeKey × IAEdge) × List (EdgeKey × ℚ) × List (EdgeKey × ℚ)
  | [], es, fl => (es, fl, [])
  | (od, dem) :: rest, es, fl =>
    if dem ≤ 0 then
      let r := assign_increment_loop table frac rest es fl
      (r.1, r.2.1, (od, 0) :: r.2.2)
    else
      match alookup table od with
      | none =>
        let r := assign_increment_loop table frac rest es fl
        (r.1, r.2.1, (od, 0) :: r.2.2)
      | some (path, _) =>
        if path = [] then
          let r := assign_increment_loop table frac rest es fl
          (r.1, r.2.1, (od, 0) :: r.2.2)
        else
          let lp := ia_load_path es fl path (dem * frac)
          let r := assign_increment_loop table frac rest lp.1 lp.2
          (r.1, r.2.1, (od, dem * frac) :: r.2.2)

/-- `IAAssignment.assign_increment` (`IA.py` lines 91-132): initialise
`incremental_flows` to 0 on every graph edge, then process the demand matrix
entry by entry against the given shortest-path table. -/
def assign_increment (net : IANet)
    (table : List (EdgeKey × (List NodeId × Option ℚ)))
    (demand : List (EdgeKey × ℚ)) (frac : ℚ) :
    IANet × List (EdgeKey × ℚ) × List (EdgeKey × ℚ) :=
  let fl0 := net.edges.map (fun e => (e.1, (0 : ℚ)))
  let r := assign_increment_loop table frac demand net.edges fl0
  ({ net with edges := r.1 }, r.2.1, r.2.2)

/-- One entry of `increment_records` in `IAAssignment.assign_demand`
(`IA.py` lines 169-174): the 1-based iteration number, this step's
incremental flows, and the link impedance after the step.  The `table` and
`routed` fields are ghost observations of the step's `self.shortest_paths`
and of the demand routed per OD pair, recorded to state invariants. -/
structure IncrementRecord where
  iteration : ℕ
  flows : List (EdgeKey × ℚ)
  link_impedance : List (EdgeKey × Option ℚ)
  table : List (EdgeKey × (List NodeId × Option ℚ))
  routed : List (EdgeKey × ℚ)
deriving DecidableEq

/-- One iteration of the loop in `IAAssignment.assign_demand` (`IA.py` lines
156-177): update the impedance from the current flows, recompute the
all-pairs shortest paths, assign the increment, and record the step. -/
def ia_step (alpha : ℚ) (beta : ℕ) (demand : List (EdgeKey × ℚ)) (frac : ℚ)
    (i : ℕ) (net : IANet) : IANet × IncrementRecord :=
  let net1 := update_link_impedance net alpha beta
  let table := ia_calculate_all_pairs net1
  let a := assign_increment net1 table demand frac
  (a.1,
   { iteration := i + 1, flows := a.2.1
     link_impedance := a.1.edges.map (fun e => (e.1, e.2.cost))
     table := table, routed := a.2.2 })

/-- The `for i in range(num_increments)` loop of `IAAssignment.assign_demand`,
peeled from the front; returns the final network and the increment records in
step order. -/
def ia_loop (alpha : ℚ) (beta : ℕ) (demand : List (EdgeKey × ℚ)) (frac : ℚ) :
    ℕ → ℕ → IANet → IANet × List IncrementRecord
  | 0, _, net => (net, [])
  | n + 1, i, net =>
    let s := ia_step alpha beta demand frac i net
    let r := ia_loop alpha beta demand frac n (i + 1) s.1
    (r.1, s.2 :: r.2)

/-- `IAAssignment.get_edge_flows` (`IA.py` lines 184-189). -/
def get_edge_flows (net : IANet) : List (EdgeKey × ℚ) :=
  net.edges.map (fun e => (e.1, e.2.flow))

/-- `IAAssignment.calculate_link_performance` (`IA.py` lines 191-198): report
each edge's CURRENT `cost` field. -/
def calculate_link_performance (net : IANet) : List (EdgeKey × Option ℚ) :=
  net.edges.map (fun e => (e.1, e.2.cost))

/-- The error `IAAssignment.assign_demand` raises for a non-positive number
of increments (`ValueError("增量份数必须大于0")`). -/
inductive IAErr where
  | valueErr : IAErr
deriving DecidableEq

/-- `IAAssignment.assign_demand` (`IA.py` lines 134-182): reject
`num_increments <= 0` before any computation, otherwise run `num_increments`
iterations with `increment_ratio = 1 / num_increments` and return the final
edge flows with the increment records (the final network is returned too so
that `calculate_link_performance` can be called on it, as the example driver
does). -/
def assign_demand (net : IANet) (demand : List (EdgeKey × ℚ))
    (num_increments : ℤ) (alpha : ℚ) (beta : ℕ) :
    Except IAErr (List (EdgeKey × ℚ) × List IncrementRecord × IANet) :=
  if num_increments ≤ 0 then Except.error IAErr.valueErr
  else
    let frac : ℚ := 1 / (num_increments : ℚ)
    let r := ia_loop alpha beta demand frac num_increments.toNat 0 net
    Except.ok (get_edge_flows r.1, r.2, r.1)

/-- Whether a shortest-path table holds a non-empty path for the OD pair
(the condition under which `assign_increment` routes the pair's demand
fraction). -/
def tableFound (table : List (EdgeKey × (List NodeId × Option ℚ)))
    (od : EdgeKey) : Bool :=
  match alookup table od with
  | some (p, _) => !p.isEmpty
  | none => false

/-- Whether a recorded step found a path for the OD pair. -/
def stepFound (r : IncrementRecord) (od : EdgeKey) : Bool :=
  tableFound r.table od

/-! ## All-or-nothing assignment (`AON.py`) -/

/-- Edge attributes kept by `AONAssignment.__init__` (`AON.py`): `cost`
(the spec's free-flow time for that edge), `capacity`, `flow`. -/
structure AONEdge where
  cost : ℚ
  capacity : ℚ
  flow : ℚ
deriving DecidableEq

/-- The network state of an `AONAssignment`. -/
structure AONNet where
  nodes : List NodeId
  edges : List (EdgeKey × AONEdge)
deriving DecidableEq

/-- `AONAssignment.__init__` (`AON.py` lines 19-34): for every spec
`(u, v, cost, capacity)` add the edge `u→v` AND the reverse edge `v→u`, both
with flow 0. -/
def AONAssignment_init (nodeIds : List NodeId)
    (edgeSpecs : List (NodeId × NodeId × ℚ × ℚ)) : AONNet :=
  edgeSpecs.foldl
    (fun net s =>
      let u := s.1
      let v := s.2.1
      let c := s.2.2.1
      let cap := s.2.2.2
      { nodes := addNodeIfAbsent (addNodeIfAbsent net.nodes u) v
        edges := addEdge
          (addEdge net.edges (u, v) { cost := c, capacity := cap, flow := 0 })
          (v, u) { cost := c, capacity := cap, flow := 0 } })
    { nodes := nodeIds, edges := [] }

/-- `AONAssignment.calculate_all_pairs_shortest_path` (`AON.py` lines 36-62),
weighting by the (finite) `cost` attribute. -/
def aon_calculate_all_pairs (net : AONNet) :
    List (EdgeKey × (List NodeId × Option ℚ)) :=
  all_pairs_shortest_path (fun d => some d.cost) net.nodes net.edges

/-- Single-pair shortest path over an AON network (what one entry of the
all-pairs table holds). -/
def aon_shortest_path (net : AONNet) (s t : NodeId) :
    List NodeId × Option ℚ :=
  shortest_path_search (fun d => some d.cost) net.nodes net.edges s t

/-- The flow-loading inner loop of `AONAssignment.assign_demand` (`AON.py`
lines 85-96): add the full demand to every existing edge along the path. -/
def aon_load_path :
    List (EdgeKey × AONEdge) → List NodeId → ℚ → List (EdgeKey × AONEdge)
  | es, u :: v :: rest, dem =>
    if (alookup es (u, v)).isSome then
      aon_load_path (aupdate (fun d => { d with flow := d.flow + dem }) es (u, v))
        (v :: rest) dem
    else aon_load_path es (v :: rest) dem
  | es, _, _ => es

/-- The per-OD-pair loop of `AONAssignment.assign_demand` (`AON.py` lines
71-96): skip non-positive demand and pairs absent from the table; a pair
whose stored path is empty is skipped with a printed no-path warning, which
the embedding returns as a list of warned pairs. -/
def aon_assign_loop (table : List (EdgeKey × (List NodeId × Option ℚ))) :
    List (EdgeKey × ℚ) → List (EdgeKey × AONEdge) →
    List (EdgeKey × AONEdge) × List EdgeKey
  | [], es => (es, [])
  | (od, dem) :: rest, es =>
    if dem ≤ 0 then aon_assign_loop table rest es
    else
      match alookup table od with
      | none => aon_assign_loop table rest es
      | some (path, _) =>
        if path = [] then
          let r := aon_assign_loop table rest es
          (r.1, od :: r.2)
        else aon_assign_loop table rest (aon_load_path es path dem)

/-- `AONAssignment.assign_demand` (`AON.py` lines 64-98): reset every edge's
flow to 0, load each OD pair's full demand on its stored shortest path, and
return `get_edge_flows()` (plus the mutated network and the no-path warnings
as ghost observations). -/
def aon_assign_demand (net : AONNet)
    (table : List (EdgeKey × (List NodeId × Option ℚ)))
    (demand : List (EdgeKey × ℚ)) :
    AONNet × List (EdgeKey × ℚ) × List EdgeKey :=
  let es0 := net.edges.map (fun e => (e.1, { e.2 with flow := (0 : ℚ) }))
  let r := aon_assign_loop table demand es0
  ({ net with edges := r.1 }, r.1.map (fun e => (e.1, e.2.flow)), r.2)

/-- The per-edge travel time computed by
`AONAssignment.calculate_link_performance`: the BPR value of the edge's
current flow, with the edge's `cost` attribute as the free-flow time;
`float('inf')` when `capacity <= 0`. -/
def aon_edge_travel_time (alpha : ℚ) (beta : ℕ) (a : AONEdge) : Option ℚ :=
  if a.capacity > 0 then
    some (bpr_travel_time alpha beta a.cost a.capacity a.flow)
  else none

/-- `AONAssignment.calculate_link_performance` (`AON.py` lines 107-129). -/
def aon_calculate_link_performance (net : AONNet) (alpha : ℚ) (beta : ℕ) :
    List (EdgeKey × Option ℚ) :=
  net.edges.map (fun e => (e.1, aon_edge_travel_time alpha beta e.2))

/-- `graph.get_graph` (`graph.py` lines 5-12): same construction as the
assignment classes — every edge dictionary entry adds the forward AND the
reverse directed edge, with `cost` set to the free flow time and flow 0. -/
def get_graph (nodeIds : List NodeId)
    (edgeSpecs : List (NodeId × NodeId × ℚ × ℚ)) : AONNet :=
  AONAssignment_init nodeIds
    (edgeSpecs.map (fun s => (s.1, s.2.1, s.2.2.1, s.2.2.2)))

/-- Replace every edge's flow by an arbitrary assignment `g` (used to state
that AON assignment is insensitive to the pre-existing flow state). -/
def withFlows (net : AONNet) (g : EdgeKey → ℚ) : AONNet :=
  { net with
    edges := net.edges.map (fun e => (e.1, { e.2 with flow := g e.1 })) }

/-- The consecutive directed edges a path traverses. -/
def pathEdges : List NodeId → List EdgeKey
  | u :: v :: rest => (u, v) :: pathEdges (v :: rest)
  | _ => []

/-! ## Association-list lemmas -/

/-- The flow attribute at a key of an IA edge dictionary. -/
def flowAt (es : List (EdgeKey × IAEdge)) (k : EdgeKey) : Option ℚ :=
  (alookup es k).map IAEdge.flow

/-- The flow attribute at a key of an AON edge dictionary. -/
def flowAtA (es : List (EdgeKey × AONEdge)) (k : EdgeKey) : Option ℚ :=
  (alookup es k).map AONEdge.flow

theorem alookup_aupdate_self {α : Type} (f : α → α) (es : List (EdgeKey × α))
    (k : EdgeKey) : alookup (aupdate f es k) k = (alookup es k).map f := by
  induction es with
  | nil => rfl
  | cons e rest ih =>
    obtain ⟨k', v⟩ := e
    by_cases h : k' = k
    · simp [aupdate, alookup, h]
    · simp [aupdate, alookup, h, ih]

theorem alookup_aupdate_ne {α : Type} (f : α → α) (es : List (EdgeKey × α))
    {k k' : EdgeKey} (h : k' ≠ k) :
    alookup (aupdate f es k) k' = alookup es k' := by
  induction es with
  | nil => rfl
  | cons e rest ih =>
    obtain ⟨ka, v⟩ := e
    by_cases h2 : ka = k
    · subst h2
      have hne : ¬ ka = k' := fun hh => h hh.symm
      simp [aupdate, alookup, hne]
    · simp [aupdate, alookup, h2, ih]

theorem alookup_map_val {α β : Type} (g : α → β) (es : List (EdgeKey × α))
    (k : EdgeKey) :
    alookup (es.map (fun e => (e.1, g e.2))) k = (alookup es k).map g := by
  induction es with
  | nil => rfl
  | cons e rest ih =>
    obtain ⟨k', v⟩ := e
    by_cases h : k' = k
    · simp [alookup, h]
    · simp [alookup, h, ih]

theorem keysOf_aupdate {α : Type} (f : α → α) (es : List (EdgeKey × α))
    (k : EdgeKey) : keysOf (aupdate f es k) = keysOf es := by
  induction es with
  | nil => rfl
  | cons e rest ih =>
    obtain ⟨k', v⟩ := e
    by_cases h : k' = k
    · simp [aupdate, keysOf, h]
    · simp only [aupdate, if_neg h]
      simpa [keysOf] using congrArg (List.cons k') ih

theorem keysOf_map_val {α β : Type} (g : α → β) (es : List (EdgeKey × α)) :
    keysOf (es.map (fun e => (e.1, g e.2))) = keysOf es := by
  simp [keysOf, List.map_map, Function.comp]

theorem alookup_isSome_iff {α : Type} (es : List (EdgeKey × α)) (k : EdgeKey) :
    (alookup es k).isSome = true ↔ k ∈ keysOf es := by
  induction es with
  | nil => simp [alookup, keysOf]
  | cons e rest ih =>
    obtain ⟨ka, v⟩ := e
    by_cases h : ka = k
    · subst h
      simp [alookup, keysOf]
    · have hne : ¬ k = ka := fun hh => h hh.symm
      simp [alookup, keysOf, h, hne, ih]

theorem alookup_mem {α : Type} {es : List (EdgeKey × α)} {k : EdgeKey}
    {v : α} (h : alookup es k = some v) : (k, v) ∈ es := by
  induction es with
  | nil => simp [alookup] at h
  | cons e rest ih =>
    obtain ⟨k', v'⟩ := e
    by_cases h2 : k' = k
    · subst h2
      have hv : v' = v := by simpa [alookup] using h
      subst hv
      exact List.mem_cons_self _ _
    · simp only [alookup, if_neg h2] at h
      exact List.mem_cons_of_mem _ (ih h)

theorem alookup_eq_none {α : Type} {es : List (EdgeKey × α)} {k : EdgeKey}
    (h : ∀ v, (k, v) ∉ es) : alookup es k = none := by
  cases hl : alookup es k with
  | none => rfl
  | some v => exact absurd (alookup_mem hl) (h v)

theorem alookup_map_entry {α β : Type} (f : EdgeKey × α → β)
    {es : List (EdgeKey × α)} {k : EdgeKey} {a : α}
    (hnodup : (keysOf es).Nodup) (hmem : (k, a) ∈ es) :
    alookup (es.map (fun e => (e.1, f e))) k = some (f (k, a)) := by
  induction es with
  | nil => simp at hmem
  | cons e rest ih =>
    obtain ⟨k', v⟩ := e
    simp only [keysOf, List.map_cons, List.nodup_cons] at hnodup
    rcases List.mem_cons.mp hmem with h | h
    · have hk : k' = k := (congrArg Prod.fst h).symm
      have hv : v = a := (congrArg Prod.snd h).symm
      subst hk
      subst hv
      simp [alookup]
    · have hk : k' ≠ k := by
        intro he
        exact hnodup.1 (he ▸ (List.mem_map.mpr ⟨(k, a), h, rfl⟩))
      simp only [List.map_cons, alookup, if_neg hk]
      exact ih hnodup.2 h

theorem omap_add_zero (o : Option ℚ) : o.map (· + 0) = o := by
  cases o <;> simp

/-! ## Path-loading lemmas (AON) -/

theorem mem_pathEdges_fst : ∀ {q : List NodeId} {a b : NodeId},
    (a, b) ∈ pathEdges q → a ∈ q
  | u :: v :: rest, a, b, h => by
    rcases List.mem_cons.mp h with h | h
    · have : a = u := (congrArg Prod.fst h)
      simp [this]
    · exact List.mem_cons_of_mem _ (mem_pathEdges_fst h)

theorem pathEdges_nodup : ∀ {q : List NodeId}, q.Nodup → (pathEdges q).Nodup
  | [], _ => by simp [pathEdges]
  | [u], _ => by simp [pathEdges]
  | u :: v :: rest, h => by
    simp only [pathEdges, List.nodup_cons]
    refine ⟨fun hmem => ?_, pathEdges_nodup (List.nodup_cons.mp h).2⟩
    exact (List.nodup_cons.mp h).1 (mem_pathEdges_fst hmem)

theorem pathEdges_length : ∀ {q : List NodeId}, q ≠ [] →
    (pathEdges q).length + 1 = q.length
  | [], h => absurd rfl h
  | [u], _ => by simp [pathEdges]
  | u :: v :: rest, _ => by
    have := pathEdges_length (q := v :: rest) (by simp)
    simpa [pathEdges] using this

theorem keysOf_aon_load_path : ∀ (p : List NodeId)
    (es : List (EdgeKey × AONEdge)) (dem : ℚ),
    keysOf (aon_load_path es p dem) = keysOf es
  | u :: v :: rest, es, dem => by
    by_cases h : (alookup es (u, v)).isSome
    · simp only [aon_load_path, if_pos h]
      rw [keysOf_aon_load_path (v :: rest), keysOf_aupdate]
    · simp only [aon_load_path, if_neg h]
      exact keysOf_aon_load_path (v :: rest) es dem
  | [], es, dem => rfl
  | [u], es, dem => rfl

theorem aon_load_path_flowAt : ∀ (p : List NodeId)
    (es : List (EdgeKey × AONEdge)) (dem : ℚ), p.Nodup →
    (∀ k ∈ pathEdges p, (alookup es k).isSome = true) →
    ∀ k : EdgeKey,
      flowAtA (aon_load_path es p dem) k =
        if k ∈ pathEdges p then (flowAtA es k).map (· + dem)
        else flowAtA es k
  | [], es, dem, _, _, k => by simp [aon_load_path, pathEdges]
  | [u], es, dem, _, _, k => by simp [aon_load_path, pathEdges]
  | u :: v :: rest, es, dem, hnodup, hsome, k => by
    have hhead : (alookup es (u, v)).isSome = true :=
      hsome (u, v) (List.mem_cons_self _ _)
    simp only [aon_load_path, if_pos hhead]
    set es' := aupdate (fun d => { d with flow := d.flow + dem }) es (u, v)
      with hes'
    have hkeys : keysOf es' = keysOf es := keysOf_aupdate _ _ _
    have hsome' : ∀ k ∈ pathEdges (v :: rest), (alookup es' k).isSome = true :=
      fun k hk => by
        rw [alookup_isSome_iff, hkeys, ← alookup_isSome_iff]
        exact hsome k (List.mem_cons_of_mem _ hk)
    have ih := aon_load_path_flowAt (v :: rest) es' dem
      (List.nodup_cons.mp hnodup).2 hsome'
    have hunotin : (u, v) ∉ pathEdges (v :: rest) := fun hmem =>
      (List.nodup_cons.mp hnodup).1 (mem_pathEdges_fst hmem)
    rw [ih k]
    by_cases hk : k = (u, v)
    · subst hk
      have : flowAtA es' (u, v) = (flowAtA es (u, v)).map (· + dem) := by
        simp only [flowAtA, hes', alookup_aupdate_self]
        cases alookup es (u, v) <;> rfl
      simp [pathEdges, hunotin, this]
    · have : flowAtA es' k = flowAtA es k := by
        simp only [flowAtA, hes', alookup_aupdate_ne _ _ hk]
      simp only [this]
      by_cases hk2 : k ∈ pathEdges (v :: rest)
      · simp [pathEdges, hk2, List.mem_cons, hk]
      · simp [pathEdges, hk2, List.mem_cons, hk]

/-! ## All-pairs table lemmas -/

theorem all_pairs_mem {α : Type} {costOf : α → Option ℚ}
    {nodes : List NodeId} {es : List (EdgeKey × α)} {s t : NodeId}
    {v : List NodeId × Option ℚ}
    (h : ((s, t), v) ∈ all_pairs_shortest_path costOf nodes es) :
    v = shortest_path_search costOf nodes es s t ∧ s ∈ nodes ∧ t ∈ nodes ∧
      t ≠ s := by
  simp only [all_pairs_shortest_path, List.mem_flatMap, List.mem_map,
    List.mem_filter] at h
  obtain ⟨s', hs', t', ⟨ht', hne⟩, heq⟩ := h
  have hkey : (s', t') = (s, t) := congrArg Prod.fst heq
  have hs2 : s' = s := congrArg Prod.fst hkey
  have ht2 : t' = t := congrArg Prod.snd hkey
  subst hs2
  subst ht2
  refine ⟨(congrArg Prod.snd heq).symm, hs', ht', ?_⟩
  simpa using hne

theorem all_pairs_key_mem {α : Type} (costOf : α → Option ℚ)
    {nodes : List NodeId} (es : List (EdgeKey × α)) {s t : NodeId}
    (hs : s ∈ nodes) (ht : t ∈ nodes) (hne : t ≠ s) :
    (s, t) ∈ keysOf (all_pairs_shortest_path costOf nodes es) := by
  simp only [keysOf, all_pairs_shortest_path, List.map_flatMap,
    List.mem_flatMap, List.map_map, List.mem_map, Function.comp]
  exact ⟨s, hs, by
    simp only [List.mem_map, List.mem_filter]
    exact ⟨t, ⟨ht, by simpa using hne⟩, rfl⟩⟩

theorem all_pairs_diag_none {α : Type} (costOf : α → Option ℚ)
    (nodes : List NodeId) (es : List (EdgeKey × α)) (o : NodeId) :
    alookup (all_pairs_shortest_path costOf nodes es) (o, o) = none := by
  apply alookup_eq_none
  intro v hv
  exact (all_pairs_mem hv).2.2.2 rfl

/-! ## AON assignment-loop lemmas -/

theorem aon_assign_loop_skip_all
    (table : List (EdgeKey × (List NodeId × Option ℚ))) :
    ∀ (demand : List (EdgeKey × ℚ)) (es : List (EdgeKey × AONEdge)),
    (∀ od dem, (od, dem) ∈ demand → 0 < dem →
      ∃ c, alookup table od = some ([], c)) →
    (aon_assign_loop table demand es).1 = es ∧
    ∀ od dem, (od, dem) ∈ demand → 0 < dem →
      od ∈ (aon_assign_loop table demand es).2
  | [], es, _ => by simp [aon_assign_loop]
  | (od, dem) :: rest, es, hskip => by
    have hrest : ∀ od' dem', (od', dem') ∈ rest → 0 < dem' →
        ∃ c, alookup table od' = some ([], c) :=
      fun od' dem' hmem hpos =>
        hskip od' dem' (List.mem_cons_of_mem _ hmem) hpos
    have ih := aon_assign_loop_skip_all table rest es hrest
    by_cases hdem : dem ≤ 0
    · simp only [aon_assign_loop, if_pos hdem]
      refine ⟨ih.1, fun od' dem' hmem hpos => ?_⟩
      rcases List.mem_cons.mp hmem with h | h
      · have hd : dem' = dem := congrArg Prod.snd h
        exact absurd (hd ▸ hpos) (not_lt.mpr hdem)
      · exact ih.2 od' dem' h hpos
    · obtain ⟨c, hc⟩ := hskip od dem (List.mem_cons_self _ _) (not_le.mp hdem)
      simp only [aon_assign_loop, if_neg hdem, hc, if_pos rfl]
      refine ⟨ih.1, fun od' dem' hmem hpos => ?_⟩
      rcases List.mem_cons.mp hmem with h | h
      · have ho : od' = od := congrArg Prod.fst h
        exact ho ▸ List.mem_cons_self _ _
      · exact List.mem_cons_of_mem _ (ih.2 od' dem' h hpos)

theorem aon_assign_loop_drop_trivial
    (table : List (EdgeKey × (List NodeId × Option ℚ)))
    (hdiag : ∀ o : NodeId, alookup table (o, o) = none) :
    ∀ (demand : List (EdgeKey × ℚ)) (es : List (EdgeKey × AONEdge)),
    aon_assign_loop table
        (demand.filter (fun e => decide (0 < e.2) && decide (e.1.1 ≠ e.1.2)))
        es
      = aon_assign_loop table demand es
  | [], es => rfl
  | (od, dem) :: rest, es => by
    by_cases hdem : 0 < dem
    · by_cases hod : od.1 ≠ od.2
      · have hcond : (decide (0 < (od, dem).2) &&
            decide ((od, dem).1.1 ≠ (od, dem).1.2)) = true := by
          simp [hdem, hod]
        rw [List.filter_cons, if_pos hcond]
        simp only [aon_assign_loop, if_neg (not_le.mpr hdem)]
        cases htab : alookup table od with
        | none => exact aon_assign_loop_drop_trivial table hdiag rest es
        | some pc =>
          obtain ⟨p, c⟩ := pc
          dsimp only
          by_cases hp : p = []
          · subst hp
            rw [if_pos rfl, if_pos rfl,
              aon_assign_loop_drop_trivial table hdiag rest es]
          · rw [if_neg hp, if_neg hp]
            exact aon_assign_loop_drop_trivial table hdiag rest _
      · have hod2 : od.1 = od.2 := not_not.mp (by simpa using hod)
        have hcond : ¬ ((decide (0 < (od, dem).2) &&
            decide ((od, dem).1.1 ≠ (od, dem).1.2)) = true) := by
          simp [hod2]
        rw [List.filter_cons, if_neg hcond]
        have htab : alookup table od = none := by
          have hood : od = (od.1, od.1) := by
            rw [Prod.ext_iff]
            exact ⟨rfl, hod2.symm⟩
          rw [hood]
          exact hdiag od.1
        simp only [aon_assign_loop, if_neg (not_le.mpr hdem), htab]
        exact aon_assign_loop_drop_trivial table hdiag rest es
    · have hcond : ¬ ((decide (0 < (od, dem).2) &&
          decide ((od, dem).1.1 ≠ (od, dem).1.2)) = true) := by
        simp [hdem]
      rw [List.filter_cons, if_neg hcond]
      simp only [aon_assign_loop, if_pos (not_lt.mp hdem)]
      exact aon_assign_loop_drop_trivial table hdiag rest es

/-! ## Concrete scenario networks (spec §8; node names A = 0, B = 1, C = 2) -/

/-- The 2-node scenario network for the IA class: single spec edge A→B with
free flow time 10 and capacity 100. -/
def scenario_ia_net : IANet := IAAssignment_init [0, 1] [(0, 1, 10, 100)]

/-- The 2-node scenario network for the AON class. -/
def scenario_aon_net : AONNet := AONAssignment_init [0, 1] [(0, 1, 10, 100)]

/-- Demand A→B = 50. -/
def scenario_demand : List (EdgeKey × ℚ) := [((0, 1), 50)]

/-- The AON shortest-path table of the scenario network. -/
def scenario_aon_table : List (EdgeKey × (List NodeId × Option ℚ)) :=
  aon_calculate_all_pairs scenario_aon_net

/-- A network whose node C = 2 is disconnected from the edge A↔B. -/
def disconnected_aon_net : AONNet := AONAssignment_init [0, 1, 2] [(0, 1, 10, 100)]

/-- C3: AON flow conservation — with a single OD pair of demand `dem > 0`
whose stored shortest path is the simple path `p` of `L = p.length - 1`
edges (all present in the network), the returned flow map puts exactly `dem`
on each of those `L` edges and 0 on every other edge of the network. -/
theorem C3_aon_flow_conservation (net : AONNet)
    (table : List (EdgeKey × (List NodeId × Option ℚ))) (o d : NodeId)
    (dem : ℚ) (p : List NodeId) (c : Option ℚ)
    (hdem : 0 < dem) (htab : alookup table (o, d) = some (p, c))
    (hne : p ≠ []) (hsimple : p.Nodup)
    (hedges : ∀ k ∈ pathEdges p, (alookup net.edges k).isSome = true) :
    (∀ k ∈ pathEdges p,
      alookup (aon_assign_demand net table [((o, d), dem)]).2.1 k = some dem) ∧
    (∀ k : EdgeKey, (alookup net.edges k).isSome = true → k ∉ pathEdges p →
      alookup (aon_assign_demand net table [((o, d), dem)]).2.1 k = some 0) ∧
    (pathEdges p).Nodup ∧ (pathEdges p).length + 1 = p.length := by
  have hres : (aon_assign_demand net table [((o, d), dem)]).2.1
      = (aon_load_path
          (net.edges.map (fun e => (e.1, { e.2 with flow := (0 : ℚ) }))) p
          dem).map (fun e => (e.1, e.2.flow)) := by
    simp only [aon_assign_demand, aon_assign_loop, if_neg (not_le.mpr hdem),
      htab]
    rw [if_neg hne]
  set es0 : List (EdgeKey × AONEdge) :=
    net.edges.map (fun e => (e.1, { e.2 with flow := (0 : ℚ) })) with hes0
  have hlook0 : ∀ k : EdgeKey,
      alookup es0 k = (alookup net.edges k).map
        (fun e => { e with flow := (0 : ℚ) }) := by
    intro k
    simpa [hes0] using
      alookup_map_val (fun e : AONEdge => { e with flow := (0 : ℚ) })
        net.edges k
  have hflow0 : ∀ k : EdgeKey, (alookup net.edges k).isSome = true →
      flowAtA es0 k = some 0 := by
    intro k hk
    rcases Option.isSome_iff_exists.mp hk with ⟨e, he⟩
    simp [flowAtA, hlook0, he]
  have hsome0 : ∀ k ∈ pathEdges p, (alookup es0 k).isSome = true := by
    intro k hk
    rw [hlook0 k]
    rcases Option.isSome_iff_exists.mp (hedges k hk) with ⟨e, he⟩
    simp [he]
  have hmain := aon_load_path_flowAt p es0 dem hsimple hsome0
  refine ⟨fun k hk => ?_, fun k hk hnot => ?_, pathEdges_nodup hsimple,
    pathEdges_length hne⟩
  · have : flowAtA (aon_load_path es0 p dem) k = some dem := by
      rw [hmain k, if_pos hk, hflow0 k (hedges k hk)]
      simp
    rw [hres]
    rw [alookup_map_val (fun e : AONEdge => e.flow)]
    simpa [flowAtA] using this
  · have : flowAtA (aon_load_path es0 p dem) k = some 0 := by
      rw [hmain k, if_neg hnot]
      exact hflow0 k hk
    rw [hres]
    rw [alookup_map_val (fun e : AONEdge => e.flow)]
    simpa [flowAtA] using this

/-- Witness for C3 at the concrete scenario network: path A→B, demand 50. -/
theorem C3_aon_flow_conservation_witness :
    (∀ k ∈ pathEdges [0, 1],
      alookup (aon_assign_demand scenario_aon_net scenario_aon_table
        [((0, 1), 50)]).2.1 k = some 50) ∧
    (∀ k : EdgeKey,
      (alookup scenario_aon_net.edges k).isSome = true →
      k ∉ pathEdges [0, 1] →
      alookup (aon_assign_demand scenario_aon_net scenario_aon_table
        [((0, 1), 50)]).2.1 k = some 0) ∧
    (pathEdges [0, 1]).Nodup ∧ (pathEdges [0, 1]).length + 1 = [0, 1].length :=
  C3_aon_flow_conservation scenario_aon_net scenario_aon_table 0 1 50 [0, 1]
    (some 10) (by decide) (by decide) (by decide) (by decide) (by decide)


/-- The all-pairs table entry of a positive-demand pair of distinct network
nodes with no connecting path is exactly `([], inf)`. -/
theorem aon_table_no_path (net : AONNet) (o d : NodeId)
    (ho : o ∈ net.nodes) (hd : d ∈ net.nodes) (hne : d ≠ o)
    (hsp : aon_shortest_path net o d = ([], none)) :
    alookup (aon_calculate_all_pairs net) (o, d) = some ([], none) := by
  have hkey : (o, d) ∈ keysOf (aon_calculate_all_pairs net) := by
    have := all_pairs_key_mem (fun a : AONEdge => some a.cost) net.edges
      ho hd hne
    simpa [aon_calculate_all_pairs] using this
  rcases Option.isSome_iff_exists.mp ((alookup_isSome_iff _ _).mpr hkey)
    with ⟨v, hv⟩
  have hvmem2 : ((o, d), v) ∈ all_pairs_shortest_path
      (fun a : AONEdge => some a.cost) net.nodes net.edges := by
    have hvmem := alookup_mem hv
    simpa [aon_calculate_all_pairs] using hvmem
  have hv2 := (all_pairs_mem hvmem2).1
  rw [hv, hv2]
  simp only [aon_shortest_path] at hsp
  rw [hsp]

/-- Inserting a demand entry whose table path is empty anywhere into the
demand matrix leaves the loop's edge dictionary unchanged: the pair is
skipped without touching any edge's flow, whatever the surrounding
entries load. -/
theorem aon_assign_loop_insert_skip_edges
    (table : List (EdgeKey × (List NodeId × Option ℚ))) (od : EdgeKey)
    (dem : ℚ) (d2 : List (EdgeKey × ℚ)) (c : Option ℚ)
    (htab : alookup table od = some ([], c)) :
    ∀ (d1 : List (EdgeKey × ℚ)) (es : List (EdgeKey × AONEdge)),
    (aon_assign_loop table (d1 ++ (od, dem) :: d2) es).1
      = (aon_assign_loop table (d1 ++ d2) es).1
  | [], es => by
    by_cases hdem0 : dem ≤ 0
    · simp only [List.nil_append, aon_assign_loop, if_pos hdem0]
    · simp only [List.nil_append, aon_assign_loop, if_neg hdem0, htab]
      simp
  | (od', dem') :: rest, es => by
    simp only [List.cons_append, aon_assign_loop]
    by_cases hdem' : dem' ≤ 0
    · simp only [if_pos hdem']
      exact aon_assign_loop_insert_skip_edges table od dem d2 c htab rest es
    · simp only [if_neg hdem']
      cases htab' : alookup table od' with
      | none =>
        exact aon_assign_loop_insert_skip_edges table od dem d2 c htab rest es
      | some pc =>
        obtain ⟨p, cc⟩ := pc
        dsimp only
        by_cases hp : p = []
        · subst hp
          rw [if_pos rfl, if_pos rfl]
          exact congrArg (fun x => (x,
              od' :: (aon_assign_loop table (rest ++ d2) es).2).1)
            (aon_assign_loop_insert_skip_edges table od dem d2 c htab rest es)
        · rw [if_neg hp, if_neg hp]
          exact aon_assign_loop_insert_skip_edges table od dem d2 c htab rest
            (aon_load_path es p dem')

/-- An inserted positive-demand entry whose table path is empty surfaces its
no-path warning, whatever the surrounding entries are. -/
theorem aon_assign_loop_insert_skip_warn
    (table : List (EdgeKey × (List NodeId × Option ℚ))) (od : EdgeKey)
    (dem : ℚ) (d2 : List (EdgeKey × ℚ)) (c : Option ℚ)
    (hdem : 0 < dem) (htab : alookup table od = some ([], c)) :
    ∀ (d1 : List (EdgeKey × ℚ)) (es : List (EdgeKey × AONEdge)),
    od ∈ (aon_assign_loop table (d1 ++ (od, dem) :: d2) es).2
  | [], es => by
    simp only [List.nil_append, aon_assign_loop, if_neg (not_le.mpr hdem),
      htab]
    simp
  | (od', dem') :: rest, es => by
    simp only [List.cons_append, aon_assign_loop]
    by_cases hdem' : dem' ≤ 0
    · simp only [if_pos hdem']
      exact aon_assign_loop_insert_skip_warn table od dem d2 c hdem htab
        rest es
    · simp only [if_neg hdem']
      cases htab' : alookup table od' with
      | none =>
        exact aon_assign_loop_insert_skip_warn table od dem d2 c hdem htab
          rest es
      | some pc =>
        obtain ⟨p, cc⟩ := pc
        dsimp only
        by_cases hp : p = []
        · subst hp
          rw [if_pos rfl]
          exact List.mem_cons_of_mem _
            (aon_assign_loop_insert_skip_warn table od dem d2 c hdem htab
              rest es)
        · rw [if_neg hp]
          exact aon_assign_loop_insert_skip_warn table od dem d2 c hdem htab
            rest (aon_load_path es p dem')

/-- C5: no-path handling — a positive-demand OD pair of distinct network
nodes with no connecting path (the computed shortest-path table stores
`([], inf)` for it) is skipped wherever it sits in the demand matrix: the
run with the pair inserted returns the SAME final network and the SAME flow
map as the run without it (no edge's flow changes on account of the pair),
its no-path warning is surfaced, and the run returns normally (the embedding
is a total function, so no exception escapes).  In particular a demand
matrix consisting only of such unreachable pairs leaves every edge's flow
at 0. -/
theorem C5_aon_no_path_skips (net : AONNet) (d1 d2 : List (EdgeKey × ℚ))
    (o d : NodeId) (dem : ℚ) (hdem : 0 < dem)
    (ho : o ∈ net.nodes) (hd : d ∈ net.nodes) (hne : d ≠ o)
    (hunreach : aon_shortest_path net o d = ([], none)) :
    (aon_assign_demand net (aon_calculate_all_pairs net)
        (d1 ++ ((o, d), dem) :: d2)).1
      = (aon_assign_demand net (aon_calculate_all_pairs net) (d1 ++ d2)).1 ∧
    (aon_assign_demand net (aon_calculate_all_pairs net)
        (d1 ++ ((o, d), dem) :: d2)).2.1
      = (aon_assign_demand net (aon_calculate_all_pairs net) (d1 ++ d2)).2.1 ∧
    (o, d) ∈ (aon_assign_demand net (aon_calculate_all_pairs net)
        (d1 ++ ((o, d), dem) :: d2)).2.2 ∧
    (∀ demand : List (EdgeKey × ℚ),
      (∀ e ∈ demand, 0 < e.2 →
        e.1.1 ∈ net.nodes ∧ e.1.2 ∈ net.nodes ∧ e.1.2 ≠ e.1.1 ∧
        aon_shortest_path net e.1.1 e.1.2 = ([], none)) →
      ∀ (k : EdgeKey) (f : ℚ),
        (k, f) ∈ (aon_assign_demand net (aon_calculate_all_pairs net)
          demand).2.1 → f = 0) := by
  set table := aon_calculate_all_pairs net with htable
  have htab : alookup table (o, d) = some ([], none) :=
    aon_table_no_path net o d ho hd hne hunreach
  set es0 : List (EdgeKey × AONEdge) :=
    net.edges.map (fun e => (e.1, { e.2 with flow := (0 : ℚ) })) with hes0
  have hedges := aon_assign_loop_insert_skip_edges table (o, d) dem d2 none
    htab d1 es0
  refine ⟨?_, ?_, ?_, ?_⟩
  · simp only [aon_assign_demand, ← hes0, hedges]
  · simp only [aon_assign_demand, ← hes0, hedges]
  · have hwarn := aon_assign_loop_insert_skip_warn table (o, d) dem d2 none
      hdem htab d1 es0
    simpa only [aon_assign_demand, ← hes0] using hwarn
  · intro demand hunr k f hmem
    have hskip : ∀ od' dem', (od', dem') ∈ demand → 0 < dem' →
        ∃ c, alookup table od' = some ([], c) := by
      intro od' dem' hmem' hpos
      obtain ⟨ho', hd', hne', hsp'⟩ := hunr (od', dem') hmem' hpos
      exact ⟨none, aon_table_no_path net od'.1 od'.2 ho' hd' hne' hsp'⟩
    have hloop := aon_assign_loop_skip_all table demand es0 hskip
    have hres : (aon_assign_demand net table demand).2.1
        = es0.map (fun e => (e.1, e.2.flow)) := by
      simp only [aon_assign_demand, ← hes0, hloop.1]
    rw [hres] at hmem
    rcases List.mem_map.mp hmem with ⟨e, hemem, heq⟩
    rcases List.mem_map.mp (hes0 ▸ hemem) with ⟨e', _, heq'⟩
    have hf : f = e.2.flow := (congrArg Prod.snd heq).symm
    have hf0 : e.2.flow = 0 := by
      have he2 : e.2 = { e'.2 with flow := (0 : ℚ) } :=
        (congrArg Prod.snd heq').symm
      rw [he2]
    rw [hf, hf0]

/-- Witness for C5 on a mixed demand matrix over the disconnected scenario
network: a routable pair (A, B) with demand 5 followed by the unreachable
pair (C, A) = (2, 0) with demand 10. -/
theorem C5_aon_no_path_skips_witness :
    (aon_assign_demand disconnected_aon_net
        (aon_calculate_all_pairs disconnected_aon_net)
        ([((0, 1), 5)] ++ ((2, 0), 10) :: [])).1
      = (aon_assign_demand disconnected_aon_net
          (aon_calculate_all_pairs disconnected_aon_net)
          ([((0, 1), 5)] ++ [])).1 ∧
    (aon_assign_demand disconnected_aon_net
        (aon_calculate_all_pairs disconnected_aon_net)
        ([((0, 1), 5)] ++ ((2, 0), 10) :: [])).2.1
      = (aon_assign_demand disconnected_aon_net
          (aon_calculate_all_pairs disconnected_aon_net)
          ([((0, 1), 5)] ++ [])).2.1 ∧
    (2, 0) ∈ (aon_assign_demand disconnected_aon_net
        (aon_calculate_all_pairs disconnected_aon_net)
        ([((0, 1), 5)] ++ ((2, 0), 10) :: [])).2.2 ∧
    (∀ demand : List (EdgeKey × ℚ),
      (∀ e ∈ demand, 0 < e.2 →
        e.1.1 ∈ disconnected_aon_net.nodes ∧
        e.1.2 ∈ disconnected_aon_net.nodes ∧ e.1.2 ≠ e.1.1 ∧
        aon_shortest_path disconnected_aon_net e.1.1 e.1.2 = ([], none)) →
      ∀ (k : EdgeKey) (f : ℚ),
        (k, f) ∈ (aon_assign_demand disconnected_aon_net
          (aon_calculate_all_pairs disconnected_aon_net) demand).2.1 →
        f = 0) :=
  C5_aon_no_path_skips disconnected_aon_net [((0, 1), 5)] [] 2 0 10
    (by decide) (by decide) (by decide) (by decide) (by decide)
/-- C10 (implicit): `AONAssignment.assign_demand` first zeroes every edge's
flow, so its result is the same from any prior flow state; and OD pairs with
non-positive demand or with origin equal to destination contribute nothing
(the all-pairs table holds no diagonal entry, so filtering them out of the
demand matrix leaves the result unchanged). -/
theorem C10_aon_reset_and_trivial_pairs (net : AONNet) (g : EdgeKey → ℚ)
    (table : List (EdgeKey × (List NodeId × Option ℚ)))
    (demand : List (EdgeKey × ℚ)) :
    aon_assign_demand (withFlows net g) table demand
      = aon_assign_demand net table demand ∧
    aon_assign_demand net (aon_calculate_all_pairs net)
        (demand.filter (fun e => decide (0 < e.2) && decide (e.1.1 ≠ e.1.2)))
      = aon_assign_demand net (aon_calculate_all_pairs net) demand := by
  constructor
  · have hes0 : List.map
        (fun e : EdgeKey × AONEdge => (e.1, { e.2 with flow := (0 : ℚ) }))
        (List.map
          (fun e : EdgeKey × AONEdge => (e.1, { e.2 with flow := g e.1 }))
          net.edges)
        = List.map
          (fun e : EdgeKey × AONEdge => (e.1, { e.2 with flow := (0 : ℚ) }))
          net.edges := by
      rw [List.map_map]
      rfl
    simp only [aon_assign_demand, withFlows, hes0]
  · have hdiag : ∀ o : NodeId,
        alookup (aon_calculate_all_pairs net) (o, o) = none := by
      intro o
      exact all_pairs_diag_none _ net.nodes net.edges o
    simp only [aon_assign_demand,
      aon_assign_loop_drop_trivial (aon_calculate_all_pairs net) hdiag demand]

/-! ## Path-loading and increment-loop lemmas (IA) -/

theorem omap_comp_add (o : Option ℚ) (a b : ℚ) :
    (o.map (· + a)).map (· + b) = o.map (· + (a + b)) := by
  cases o <;> simp [add_assoc]

theorem keysOf_ia_load_path : ∀ (p : List NodeId)
    (es : List (EdgeKey × IAEdge)) (fl : List (EdgeKey × ℚ)) (inc : ℚ),
    keysOf (ia_load_path es fl p inc).1 = keysOf es ∧
    keysOf (ia_load_path es fl p inc).2 = keysOf fl
  | u :: v :: rest, es, fl, inc => by
    by_cases h : (alookup es (u, v)).isSome
    · simp only [ia_load_path, if_pos h]
      have ih := keysOf_ia_load_path (v :: rest)
        (aupdate (fun d => { d with flow := d.flow + inc }) es (u, v))
        (aupdate (fun q => q + inc) fl (u, v)) inc
      rw [ih.1, ih.2, keysOf_aupdate, keysOf_aupdate]
      exact ⟨rfl, rfl⟩
    · simp only [ia_load_path, if_neg h]
      exact keysOf_ia_load_path (v :: rest) es fl inc
  | [], es, fl, inc => ⟨rfl, rfl⟩
  | [u], es, fl, inc => ⟨rfl, rfl⟩

theorem ia_load_path_static : ∀ (p : List NodeId)
    (es : List (EdgeKey × IAEdge)) (fl : List (EdgeKey × ℚ)) (inc : ℚ)
    (k : EdgeKey),
    ∃ q : ℚ, alookup (ia_load_path es fl p inc).1 k
      = (alookup es k).map (fun d => { d with flow := q })
  | [], es, fl, inc, k =>
    ⟨(alookup es k).elim 0 IAEdge.flow, by
      cases h : alookup es k <;> simp [ia_load_path, h]⟩
  | [u], es, fl, inc, k =>
    ⟨(alookup es k).elim 0 IAEdge.flow, by
      cases h : alookup es k <;> simp [ia_load_path, h]⟩
  | u :: v :: rest, es, fl, inc, k => by
    by_cases h : (alookup es (u, v)).isSome
    · simp only [ia_load_path, if_pos h]
      set es' := aupdate (fun d => { d with flow := d.flow + inc }) es (u, v)
        with hes'
      obtain ⟨q, hq⟩ := ia_load_path_static (v :: rest) es'
        (aupdate (fun q => q + inc) fl (u, v)) inc k
      refine ⟨q, ?_⟩
      rw [hq]
      by_cases hk : k = (u, v)
      · rw [hk, hes', alookup_aupdate_self]
        cases alookup es (u, v) with
        | none => rfl
        | some d => rfl
      · rw [hes', alookup_aupdate_ne _ _ hk]
    · simp only [ia_load_path, if_neg h]
      exact ia_load_path_static (v :: rest) es fl inc k

theorem ia_load_path_diff : ∀ (p : List NodeId)
    (es : List (EdgeKey × IAEdge)) (fl : List (EdgeKey × ℚ)) (inc : ℚ),
    keysOf fl = keysOf es → ∀ k : EdgeKey,
    ∃ δ : ℚ,
      flowAt (ia_load_path es fl p inc).1 k = (flowAt es k).map (· + δ) ∧
      alookup (ia_load_path es fl p inc).2 k = (alookup fl k).map (· + δ)
  | [], es, fl, inc, _, k =>
    ⟨0, by simp [ia_load_path, omap_add_zero]⟩
  | [u], es, fl, inc, _, k =>
    ⟨0, by simp [ia_load_path, omap_add_zero]⟩
  | u :: v :: rest, es, fl, inc, hkeys, k => by
    by_cases h : (alookup es (u, v)).isSome
    · simp only [ia_load_path, if_pos h]
      set es' := aupdate (fun d => { d with flow := d.flow + inc }) es (u, v)
        with hes'
      set fl' := aupdate (fun q => q + inc) fl (u, v) with hfl'
      have hkeys' : keysOf fl' = keysOf es' := by
        rw [hes', hfl', keysOf_aupdate, keysOf_aupdate, hkeys]
      obtain ⟨δ, hδ1, hδ2⟩ := ia_load_path_diff (v :: rest) es' fl' inc hkeys' k
      by_cases hk : k = (u, v)
      · refine ⟨inc + δ, ?_, ?_⟩
        · rw [hδ1]
          have hstep : flowAt es' k = (flowAt es k).map (· + inc) := by
            simp only [flowAt]
            rw [hk, hes', alookup_aupdate_self]
            cases alookup es (u, v) with
            | none => rfl
            | some d => rfl
          rw [hstep, omap_comp_add]
        · rw [hδ2]
          have hstep2 : alookup fl' k = (alookup fl k).map (· + inc) := by
            rw [hk, hfl', alookup_aupdate_self]
          rw [hstep2, omap_comp_add]
      · refine ⟨δ, ?_, ?_⟩
        · rw [hδ1]
          simp only [flowAt, hes', alookup_aupdate_ne _ _ hk]
        · rw [hδ2, hfl', alookup_aupdate_ne _ _ hk]
    · simp only [ia_load_path, if_neg h]
      exact ia_load_path_diff (v :: rest) es fl inc hkeys k

/-- The demand the per-OD-pair loop of `assign_increment` routes for one
demand entry: the entry's increment `dem * frac` when the pair has a
non-empty stored path, 0 when it is skipped. -/
def ia_routed_amount (table : List (EdgeKey × (List NodeId × Option ℚ)))
    (frac : ℚ) (e : EdgeKey × ℚ) : ℚ :=
  if e.2 ≤ 0 then 0
  else
    match alookup table e.1 with
    | none => 0
    | some (p, _) => if p = [] then 0 else e.2 * frac

theorem assign_increment_loop_routed
    (table : List (EdgeKey × (List NodeId × Option ℚ))) (frac : ℚ) :
    ∀ (demand : List (EdgeKey × ℚ)) (es : List (EdgeKey × IAEdge))
      (fl : List (EdgeKey × ℚ)),
    (assign_increment_loop table frac demand es fl).2.2
      = demand.map (fun e => (e.1, ia_routed_amount table frac e))
  | [], es, fl => rfl
  | (od, dem) :: rest, es, fl => by
    by_cases hdem : dem ≤ 0
    · simp only [assign_increment_loop, if_pos hdem, List.map_cons,
        ia_routed_amount, assign_increment_loop_routed table frac rest es fl]
    · cases htab : alookup table od with
      | none =>
        simp only [assign_increment_loop, if_neg hdem, htab, List.map_cons,
          ia_routed_amount, assign_increment_loop_routed table frac rest es fl]
      | some pc =>
        obtain ⟨p, c⟩ := pc
        by_cases hp : p = []
        · subst hp
          simp only [assign_increment_loop, if_neg hdem, htab, if_pos rfl,
            if_true, List.map_cons, ia_routed_amount,
            assign_increment_loop_routed table frac rest es fl]
        · simp only [assign_increment_loop, if_neg hdem, htab, if_neg hp,
            List.map_cons, ia_routed_amount,
            assign_increment_loop_routed table frac rest]

theorem keysOf_assign_increment_loop
    (table : List (EdgeKey × (List NodeId × Option ℚ))) (frac : ℚ) :
    ∀ (demand : List (EdgeKey × ℚ)) (es : List (EdgeKey × IAEdge))
      (fl : List (EdgeKey × ℚ)),
    keysOf (assign_increment_loop table frac demand es fl).1 = keysOf es ∧
    keysOf (assign_increment_loop table frac demand es fl).2.1 = keysOf fl
  | [], es, fl => ⟨rfl, rfl⟩
  | (od, dem) :: rest, es, fl => by
    by_cases hdem : dem ≤ 0
    · simp only [assign_increment_loop, if_pos hdem]
      exact keysOf_assign_increment_loop table frac rest es fl
    · cases htab : alookup table od with
      | none =>
        simp only [assign_increment_loop, if_neg hdem, htab]
        exact keysOf_assign_increment_loop table frac rest es fl
      | some pc =>
        obtain ⟨p, c⟩ := pc
        by_cases hp : p = []
        · subst hp
          simp only [assign_increment_loop, if_neg hdem, htab, if_pos rfl]
          exact keysOf_assign_increment_loop table frac rest es fl
        · simp only [assign_increment_loop, if_neg hdem, htab, if_neg hp]
          have hload := keysOf_ia_load_path p es fl (dem * frac)
          have hrec := keysOf_assign_increment_loop table frac rest
            (ia_load_path es fl p (dem * frac)).1
            (ia_load_path es fl p (dem * frac)).2
          exact ⟨hrec.1.trans hload.1, hrec.2.trans hload.2⟩

theorem assign_increment_loop_diff
    (table : List (EdgeKey × (List NodeId × Option ℚ))) (frac : ℚ) :
    ∀ (demand : List (EdgeKey × ℚ)) (es : List (EdgeKey × IAEdge))
      (fl : List (EdgeKey × ℚ)), keysOf fl = keysOf es → ∀ k : EdgeKey,
    ∃ δ : ℚ,
      flowAt (assign_increment_loop table frac demand es fl).1 k
        = (flowAt es k).map (· + δ) ∧
      alookup (assign_increment_loop table frac demand es fl).2.1 k
        = (alookup fl k).map (· + δ)
  | [], es, fl, _, k => ⟨0, by simp [assign_increment_loop, omap_add_zero]⟩
  | (od, dem) :: rest, es, fl, hkeys, k => by
    by_cases hdem : dem ≤ 0
    · simp only [assign_increment_loop, if_pos hdem]
      exact assign_increment_loop_diff table frac rest es fl hkeys k
    · cases htab : alookup table od with
      | none =>
        simp only [assign_increment_loop, if_neg hdem, htab]
        exact assign_increment_loop_diff table frac rest es fl hkeys k
      | some pc =>
        obtain ⟨p, c⟩ := pc
        by_cases hp : p = []
        · subst hp
          simp only [assign_increment_loop, if_neg hdem, htab, if_pos rfl]
          exact assign_increment_loop_diff table frac rest es fl hkeys k
        · simp only [assign_increment_loop, if_neg hdem, htab, if_neg hp]
          obtain ⟨δ1, h1, h2⟩ := ia_load_path_diff p es fl (dem * frac) hkeys k
          have hkeys' :
              keysOf (ia_load_path es fl p (dem * frac)).2
                = keysOf (ia_load_path es fl p (dem * frac)).1 := by
            rw [(keysOf_ia_load_path p es fl (dem * frac)).1,
              (keysOf_ia_load_path p es fl (dem * frac)).2, hkeys]
          obtain ⟨δ2, h3, h4⟩ := assign_increment_loop_diff table frac rest
            (ia_load_path es fl p (dem * frac)).1
            (ia_load_path es fl p (dem * frac)).2 hkeys' k
          refine ⟨δ1 + δ2, ?_, ?_⟩
          · rw [h3, h1, omap_comp_add]
          · rw [h4, h2, omap_comp_add]

theorem assign_increment_loop_static
    (table : List (EdgeKey × (List NodeId × Option ℚ))) (frac : ℚ) :
    ∀ (demand : List (EdgeKey × ℚ)) (es : List (EdgeKey × IAEdge))
      (fl : List (EdgeKey × ℚ)) (k : EdgeKey),
    ∃ q : ℚ, alookup (assign_increment_loop table frac demand es fl).1 k
      = (alookup es k).map (fun d => { d with flow := q })
  | [], es, fl, k =>
    ⟨(alookup es k).elim 0 IAEdge.flow, by
      cases h : alookup es k <;> simp [assign_increment_loop, h]⟩
  | (od, dem) :: rest, es, fl, k => by
    by_cases hdem : dem ≤ 0
    · simp only [assign_increment_loop, if_pos hdem]
      exact assign_increment_loop_static table frac rest es fl k
    · cases htab : alookup table od with
      | none =>
        simp only [assign_increment_loop, if_neg hdem, htab]
        exact assign_increment_loop_static table frac rest es fl k
      | some pc =>
        obtain ⟨p, c⟩ := pc
        by_cases hp : p = []
        · subst hp
          simp only [assign_increment_loop, if_neg hdem, htab, if_pos rfl]
          exact assign_increment_loop_static table frac rest es fl k
        · simp only [assign_increment_loop, if_neg hdem, htab, if_neg hp]
          obtain ⟨q1, hq1⟩ := ia_load_path_static p es fl (dem * frac) k
          obtain ⟨q2, hq2⟩ := assign_increment_loop_static table frac rest
            (ia_load_path es fl p (dem * frac)).1
            (ia_load_path es fl p (dem * frac)).2 k
          refine ⟨q2, ?_⟩
          rw [hq2, hq1]
          cases alookup es k with
          | none => rfl
          | some d => rfl

/-! ## Step and loop lemmas (IA `assign_demand`) -/

theorem flowAt_update_link_impedance (net : IANet) (alpha : ℚ) (beta : ℕ)
    (k : EdgeKey) :
    flowAt (update_link_impedance net alpha beta).edges k
      = flowAt net.edges k := by
  simp only [update_link_impedance, flowAt]
  rw [alookup_map_val (ia_update_edge alpha beta)]
  cases alookup net.edges k with
  | none => rfl
  | some d => rfl

theorem keysOf_ia_step (alpha : ℚ) (beta : ℕ) (demand : List (EdgeKey × ℚ))
    (frac : ℚ) (i : ℕ) (net : IANet) :
    keysOf (ia_step alpha beta demand frac i net).1.edges
      = keysOf net.edges := by
  simp only [ia_step, assign_increment, update_link_impedance]
  rw [(keysOf_assign_increment_loop _ _ demand _ _).1]
  exact keysOf_map_val (ia_update_edge alpha beta) net.edges

theorem ia_step_flow (alpha : ℚ) (beta : ℕ) (demand : List (EdgeKey × ℚ))
    (frac : ℚ) (i : ℕ) (net : IANet) (k : EdgeKey) :
    flowAt (ia_step alpha beta demand frac i net).1.edges k
      = (flowAt net.edges k).map
        (· + (alookup (ia_step alpha beta demand frac i net).2.flows k).getD 0) := by
  simp only [ia_step, assign_increment]
  set net1 := update_link_impedance net alpha beta with hnet1
  set table := ia_calculate_all_pairs net1 with htable
  set fl0 := net1.edges.map (fun e => (e.1, (0 : ℚ))) with hfl0
  have hkeys : keysOf fl0 = keysOf net1.edges := by
    rw [hfl0]
    exact keysOf_map_val (fun _ : IAEdge => (0 : ℚ)) net1.edges
  obtain ⟨δ, h1, h2⟩ :=
    assign_increment_loop_diff table frac demand net1.edges fl0 hkeys k
  have hupd : flowAt net1.edges k = flowAt net.edges k :=
    flowAt_update_link_impedance net alpha beta k
  have hfl0k : alookup fl0 k = (alookup net1.edges k).map (fun _ => (0 : ℚ)) := by
    rw [hfl0]
    exact alookup_map_val (fun _ : IAEdge => (0 : ℚ)) net1.edges k
  rw [h1, h2, hupd, hfl0k]
  cases hnet : alookup net1.edges k with
  | none =>
    have hz : flowAt net.edges k = none := by
      rw [← hupd]
      simp [flowAt, hnet]
    simp [hz]
  | some d =>
    simp [zero_add]

theorem ia_step_static (alpha : ℚ) (beta : ℕ) (demand : List (EdgeKey × ℚ))
    (frac : ℚ) (i : ℕ) (net : IANet) (k : EdgeKey) :
    ∃ q : ℚ, alookup (ia_step alpha beta demand frac i net).1.edges k
      = (alookup net.edges k).map
        (fun d => { d with flow := q, cost := ia_edge_impedance alpha beta d }) := by
  simp only [ia_step, assign_increment]
  obtain ⟨q, hq⟩ := assign_increment_loop_static
    (ia_calculate_all_pairs (update_link_impedance net alpha beta)) frac demand
    (update_link_impedance net alpha beta).edges
    ((update_link_impedance net alpha beta).edges.map (fun e => (e.1, (0 : ℚ))))
    k
  refine ⟨q, ?_⟩
  rw [hq]
  simp only [update_link_impedance]
  rw [alookup_map_val (ia_update_edge alpha beta)]
  cases alookup net.edges k with
  | none => rfl
  | some d => rfl

theorem ia_routed_amount_eq
    (table : List (EdgeKey × (List NodeId × Option ℚ))) (frac : ℚ)
    (od : EdgeKey) (dem : ℚ) (hdem : 0 < dem) :
    ia_routed_amount table frac (od, dem)
      = if tableFound table od then dem * frac else 0 := by
  have h : ∀ x : Option (List NodeId × Option ℚ),
      (match x with
       | none => (0 : ℚ)
       | some (p, _) => if p = [] then 0 else dem * frac)
      = if (match x with
            | some (p, _) => !p.isEmpty
            | none => false) then dem * frac else 0 := by
    intro x
    rcases x with _ | ⟨p, c⟩
    · rfl
    · cases p with
      | nil => simp
      | cons y ys => simp
  simp only [ia_routed_amount, tableFound, if_neg (not_le.mpr hdem)]
  exact h (alookup table od)

theorem ia_step_routed_lookup (alpha : ℚ) (beta : ℕ)
    (demand : List (EdgeKey × ℚ)) (frac : ℚ) (i : ℕ) (net : IANet)
    (o d : NodeId) (dem : ℚ) (hnodup : (keysOf demand).Nodup)
    (hmem : ((o, d), dem) ∈ demand) (hdem : 0 < dem) :
    alookup (ia_step alpha beta demand frac i net).2.routed (o, d)
      = some
        (if stepFound (ia_step alpha beta demand frac i net).2 (o, d) then
          dem * frac
        else 0) := by
  have hrouted : (ia_step alpha beta demand frac i net).2.routed
      = demand.map (fun e =>
          (e.1, ia_routed_amount
            (ia_step alpha beta demand frac i net).2.table frac e)) := by
    simp only [ia_step, assign_increment]
    exact assign_increment_loop_routed _ frac demand _ _
  rw [hrouted, alookup_map_entry
    (fun e => ia_routed_amount (ia_step alpha beta demand frac i net).2.table
      frac e) hnodup hmem]
  rw [ia_routed_amount_eq _ frac (o, d) dem hdem]
  rfl

theorem ia_loop_len (alpha : ℚ) (beta : ℕ) (demand : List (EdgeKey × ℚ))
    (frac : ℚ) : ∀ (n i : ℕ) (net : IANet),
    (ia_loop alpha beta demand frac n i net).2.length = n
  | 0, _, _ => rfl
  | n + 1, i, net => by
    simp only [ia_loop, List.length_cons]
    rw [ia_loop_len alpha beta demand frac n (i + 1)
      (ia_step alpha beta demand frac i net).1]

theorem keysOf_ia_loop (alpha : ℚ) (beta : ℕ) (demand : List (EdgeKey × ℚ))
    (frac : ℚ) : ∀ (n i : ℕ) (net : IANet),
    keysOf (ia_loop alpha beta demand frac n i net).1.edges
      = keysOf net.edges
  | 0, _, _ => rfl
  | n + 1, i, net => by
    simp only [ia_loop]
    rw [keysOf_ia_loop alpha beta demand frac n (i + 1)
      (ia_step alpha beta demand frac i net).1]
    exact keysOf_ia_step alpha beta demand frac i net

theorem ia_loop_mem_step (alpha : ℚ) (beta : ℕ) (demand : List (EdgeKey × ℚ))
    (frac : ℚ) : ∀ (n i : ℕ) (net : IANet) (r : IncrementRecord),
    r ∈ (ia_loop alpha beta demand frac n i net).2 →
    ∃ (j : ℕ) (net' : IANet), r = (ia_step alpha beta demand frac j net').2
  | 0, _, _, r => by simp [ia_loop]
  | n + 1, i, net, r => by
    simp only [ia_loop, List.mem_cons]
    rintro (h | h)
    · exact ⟨i, net, h⟩
    · exact ia_loop_mem_step alpha beta demand frac n (i + 1)
        (ia_step alpha beta demand frac i net).1 r h

theorem ia_loop_flow_sum (alpha : ℚ) (beta : ℕ) (demand : List (EdgeKey × ℚ))
    (frac : ℚ) : ∀ (n i : ℕ) (net : IANet) (k : EdgeKey),
    flowAt (ia_loop alpha beta demand frac n i net).1.edges k
      = (flowAt net.edges k).map
        (· + ((ia_loop alpha beta demand frac n i net).2.map
          (fun r => (alookup r.flows k).getD 0)).sum)
  | 0, _, net, k => by simp [ia_loop, omap_add_zero]
  | n + 1, i, net, k => by
    simp only [ia_loop, List.map_cons, List.sum_cons]
    rw [ia_loop_flow_sum alpha beta demand frac n (i + 1)
      (ia_step alpha beta demand frac i net).1 k]
    rw [ia_step_flow alpha beta demand frac i net k, omap_comp_add]

theorem ia_loop_snoc (alpha : ℚ) (beta : ℕ) (demand : List (EdgeKey × ℚ))
    (frac : ℚ) : ∀ (n i : ℕ) (net : IANet),
    ia_loop alpha beta demand frac (n + 1) i net
      = ((ia_step alpha beta demand frac (i + n)
            (ia_loop alpha beta demand frac n i net).1).1,
         (ia_loop alpha beta demand frac n i net).2
           ++ [(ia_step alpha beta demand frac (i + n)
                 (ia_loop alpha beta demand frac n i net).1).2])
  | 0, i, net => by simp [ia_loop]
  | n + 1, i, net => by
    have harith : i + 1 + n = i + (n + 1) := by omega
    conv_lhs => rw [ia_loop]
    rw [ia_loop_snoc alpha beta demand frac n (i + 1)
      (ia_step alpha beta demand frac i net).1]
    conv_rhs => rw [ia_loop]
    rw [harith]
    simp [List.cons_append]

/-! ## Initial-state and summation lemmas -/

theorem mem_aupdate_set {α : Type} (d : α) :
    ∀ (es : List (EdgeKey × α)) (k : EdgeKey) (e : EdgeKey × α),
    e ∈ aupdate (fun _ => d) es k → e ∈ es ∨ e.2 = d
  | [], _, e => by simp [aupdate]
  | (k', v) :: rest, k, e => by
    by_cases h : k' = k
    · simp only [aupdate, if_pos h]
      intro he
      rcases List.mem_cons.mp he with he | he
      · right
        exact congrArg Prod.snd he
      · left
        exact List.mem_cons_of_mem _ he
    · simp only [aupdate, if_neg h]
      intro he
      rcases List.mem_cons.mp he with he | he
      · left
        exact he ▸ List.mem_cons_self _ _
      · rcases mem_aupdate_set d rest k e he with h2 | h2
        · exact Or.inl (List.mem_cons_of_mem _ h2)
        · exact Or.inr h2

theorem mem_addEdge {α : Type} {d : α} {es : List (EdgeKey × α)}
    {k : EdgeKey} {e : EdgeKey × α} (h : e ∈ addEdge es k d) :
    e ∈ es ∨ e.2 = d := by
  simp only [addEdge] at h
  by_cases hs : (alookup es k).isSome
  · rw [if_pos hs] at h
    exact mem_aupdate_set d es k e h
  · rw [if_neg hs] at h
    rcases List.mem_append.mp h with h2 | h2
    · exact Or.inl h2
    · right
      rcases List.mem_singleton.mp h2 with rfl
      rfl

theorem IAAssignment_init_flow_zero (nodeIds : List NodeId)
    (edgeSpecs : List (NodeId × NodeId × ℚ × ℚ)) :
    ∀ e ∈ (IAAssignment_init nodeIds edgeSpecs).edges, e.2.flow = 0 := by
  suffices h : ∀ (specs : List (NodeId × NodeId × ℚ × ℚ)) (net : IANet),
      (∀ e ∈ net.edges, e.2.flow = 0) →
      ∀ e ∈ (specs.foldl ia_add_edge_spec net).edges, e.2.flow = 0 by
    exact h edgeSpecs { nodes := nodeIds, edges := [] } (by simp)
  intro specs
  induction specs with
  | nil =>
    intro net hnet e he
    exact hnet e he
  | cons s rest ih =>
    intro net hnet e he
    refine ih (ia_add_edge_spec net s) ?_ e he
    intro e' he'
    simp only [ia_add_edge_spec] at he'
    rcases mem_addEdge he' with h2 | h2
    · rcases mem_addEdge h2 with h3 | h3
      · exact hnet e' h3
      · rw [h3]
        rfl
    · rw [h2]
      rfl

theorem list_map_sum_ite {γ : Type} (P : γ → Bool) (c : ℚ) :
    ∀ (l : List γ) (f : γ → ℚ), (∀ r ∈ l, f r = if P r then c else 0) →
    (l.map f).sum = ((l.filter P).length : ℚ) * c
  | [], f, _ => by simp
  | a :: l, f, h => by
    have ha := h a (List.mem_cons_self _ _)
    have hrest := list_map_sum_ite P c l f
      (fun r hr => h r (List.mem_cons_of_mem _ hr))
    by_cases hp : P a
    · rw [List.map_cons, List.sum_cons, ha, if_pos hp, hrest,
        List.filter_cons_of_pos hp, List.length_cons]
      push_cast
      ring
    · rw [List.map_cons, List.sum_cons, ha, if_neg hp, hrest,
        List.filter_cons_of_neg (by simpa using hp)]
      ring

/-- C4: IA conservation — after a successful `assign_demand` run with `K`
increments on a freshly built network, (i) there is one increment record per
step, (ii) every edge's final flow is the sum over the records of that step's
incremental flow on the edge, (iii) each step routes exactly `dem * (1/K)`
for an OD pair with positive demand when that step's table holds a path for
it and 0 otherwise, so (iv) the total demand routed for the pair is the
number of path-finding steps times `dem/K`, and (v) it equals the pair's full
demand `dem` when every step found a path (one path-less step loses exactly
that step's `1/K` fraction). -/
theorem C4_ia_conservation (nodeIds : List NodeId)
    (specs : List (NodeId × NodeId × ℚ × ℚ)) (demand : List (EdgeKey × ℚ))
    (K : ℤ) (alpha : ℚ) (beta : ℕ) (flows : List (EdgeKey × ℚ))
    (recs : List IncrementRecord) (netF : IANet)
    (hok : assign_demand (IAAssignment_init nodeIds specs) demand K alpha beta
      = Except.ok (flows, recs, netF))
    (o d : NodeId) (dem : ℚ) (hmem : ((o, d), dem) ∈ demand)
    (hnodup : (keysOf demand).Nodup) (hdem : 0 < dem) :
    recs.length = K.toNat ∧
    (∀ k : EdgeKey, alookup flows k
      = (alookup (IAAssignment_init nodeIds specs).edges k).map
          (fun _ => (recs.map (fun r => (alookup r.flows k).getD 0)).sum)) ∧
    (∀ r ∈ recs, alookup r.routed (o, d)
      = some (if stepFound r (o, d) then dem * (1 / (K : ℚ)) else 0)) ∧
    ((recs.map (fun r => (alookup r.routed (o, d)).getD 0)).sum
      = ((recs.filter (fun r => stepFound r (o, d))).length : ℚ)
          * (dem * (1 / (K : ℚ)))) ∧
    ((∀ r ∈ recs, stepFound r (o, d) = true) →
      (recs.map (fun r => (alookup r.routed (o, d)).getD 0)).sum = dem) := by
  by_cases hK : K ≤ 0
  · simp [assign_demand, if_pos hK] at hok
  · simp only [assign_demand, if_neg hK] at hok
    set net0 := IAAssignment_init nodeIds specs with hnet0
    set L := ia_loop alpha beta demand (1 / (K : ℚ)) K.toNat 0 net0 with hL
    have hok2 : get_edge_flows L.1 = flows ∧ L.2 = recs ∧ L.1 = netF := by
      simpa [Prod.ext_iff] using hok
    obtain ⟨hflows, hrecs, hnetF⟩ := hok2
    have hroutedr : ∀ r ∈ recs, alookup r.routed (o, d)
        = some (if stepFound r (o, d) then dem * (1 / (K : ℚ)) else 0) := by
      intro r hr
      rw [← hrecs] at hr
      obtain ⟨j, net', hrstep⟩ :=
        ia_loop_mem_step alpha beta demand (1 / (K : ℚ)) K.toNat 0 net0 r hr
      rw [hrstep]
      exact ia_step_routed_lookup alpha beta demand (1 / (K : ℚ)) j net' o d
        dem hnodup hmem hdem
    have hsum : (recs.map (fun r => (alookup r.routed (o, d)).getD 0)).sum
        = ((recs.filter (fun r => stepFound r (o, d))).length : ℚ)
            * (dem * (1 / (K : ℚ))) := by
      refine list_map_sum_ite (fun r => stepFound r (o, d))
        (dem * (1 / (K : ℚ))) recs _ ?_
      intro r hr
      rw [hroutedr r hr]
      rfl
    have hlen : recs.length = K.toNat := by
      rw [← hrecs, hL]
      exact ia_loop_len alpha beta demand (1 / (K : ℚ)) K.toNat 0 net0
    refine ⟨hlen, ?_, hroutedr, hsum, ?_⟩
    · intro k
      have hfl : alookup flows k = flowAt L.1.edges k := by
        rw [← hflows]
        simp only [get_edge_flows]
        rw [alookup_map_val (fun d0 : IAEdge => d0.flow)]
        rfl
      rw [hfl, hL]
      rw [ia_loop_flow_sum alpha beta demand (1 / (K : ℚ)) K.toNat 0 net0 k]
      rw [hrecs]
      cases h0 : alookup net0.edges k with
      | none => simp [flowAt, h0]
      | some e0 =>
        have hz : e0.flow = 0 :=
          IAAssignment_init_flow_zero nodeIds specs (k, e0)
            (hnet0 ▸ alookup_mem h0)
        simp [flowAt, h0, hz]
    · intro hall
      rw [hsum, List.filter_eq_self.mpr hall, hlen]
      have hKpos : (0 : ℤ) < K := lt_of_not_le hK
      have hKQ : ((K.toNat : ℕ) : ℚ) = (K : ℚ) := by
        rw [← Int.cast_natCast]
        rw [Int.toNat_of_nonneg hKpos.le]
      rw [hKQ]
      have hKne : (K : ℚ) ≠ 0 := by
        exact_mod_cast hKpos.ne'
      field_simp

/-! ## Concrete runs of the scenario (for the remaining claims) -/

/-- The IA scenario run with K = 1 increments. -/
def ia_run1 : Except IAErr
    (List (EdgeKey × ℚ) × List IncrementRecord × IANet) :=
  assign_demand scenario_ia_net scenario_demand 1 (3 / 20) 4

/-- The final network of `ia_run1`. -/
def ia_run1_net : IANet :=
  match ia_run1 with
  | Except.ok r => r.2.2
  | Except.error _ => { nodes := [], edges := [] }

/-- The IA scenario run with K = 2 increments. -/
def ia_run2 : Except IAErr
    (List (EdgeKey × ℚ) × List IncrementRecord × IANet) :=
  assign_demand scenario_ia_net scenario_demand 2 (3 / 20) 4

/-- The final edge flows of `ia_run2`. -/
def ia_run2_flows : List (EdgeKey × ℚ) :=
  match ia_run2 with
  | Except.ok r => r.1
  | Except.error _ => []

/-- The increment records of `ia_run2`. -/
def ia_run2_recs : List IncrementRecord :=
  match ia_run2 with
  | Except.ok r => r.2.1
  | Except.error _ => []

/-- The final network of `ia_run2`. -/
def ia_run2_net : IANet :=
  match ia_run2 with
  | Except.ok r => r.2.2
  | Except.error _ => { nodes := [], edges := [] }

instance {ε σ : Type} [DecidableEq ε] [DecidableEq σ] :
    DecidableEq (Except ε σ) := fun a b =>
  match a, b with
  | Except.error x, Except.error y =>
    if h : x = y then Decidable.isTrue (congrArg Except.error h)
    else Decidable.isFalse (fun hh => h (Except.error.inj hh))
  | Except.ok x, Except.ok y =>
    if h : x = y then Decidable.isTrue (congrArg Except.ok h)
    else Decidable.isFalse (fun hh => h (Except.ok.inj hh))
  | Except.error _, Except.ok _ => Decidable.isFalse (fun hh => Except.noConfusion hh)
  | Except.ok _, Except.error _ => Decidable.isFalse (fun hh => Except.noConfusion hh)

/-- C1 (amended): after a successful K-increment run there is NO final cost
recomputation — `calculate_link_performance` reports, for every edge, the
impedance computed at the START of step K, i.e. the BPR value of the edge
data after steps 1..K-1 (its cumulative flow excludes the final step's
increment). -/
theorem C1_reported_cost_is_prefinal_impedance (net : IANet)
    (demand : List (EdgeKey × ℚ)) (K : ℤ) (alpha : ℚ) (beta : ℕ)
    (flows : List (EdgeKey × ℚ)) (recs : List IncrementRecord) (netF : IANet)
    (hok : assign_demand net demand K alpha beta
      = Except.ok (flows, recs, netF))
    (u v : NodeId) (hkey : (u, v) ∈ keysOf net.edges) :
    ∃ dPrev : IAEdge,
      alookup (ia_loop alpha beta demand (1 / (K : ℚ)) (K.toNat - 1) 0
        net).1.edges (u, v) = some dPrev ∧
      alookup (calculate_link_performance netF) (u, v)
        = some (ia_edge_impedance alpha beta dPrev) := by
  by_cases hK : K ≤ 0
  · simp [assign_demand, if_pos hK] at hok
  · simp only [assign_demand, if_neg hK] at hok
    have hokc : get_edge_flows
        (ia_loop alpha beta demand (1 / (K : ℚ)) K.toNat 0 net).1 = flows ∧
        (ia_loop alpha beta demand (1 / (K : ℚ)) K.toNat 0 net).2 = recs ∧
        (ia_loop alpha beta demand (1 / (K : ℚ)) K.toNat 0 net).1 = netF := by
      simpa [Prod.ext_iff] using hok
    have hnetF := hokc.2.2
    set netP := (ia_loop alpha beta demand (1 / (K : ℚ)) (K.toNat - 1) 0
      net).1 with hnetP
    have hn : K.toNat = (K.toNat - 1) + 1 := by omega
    have hsnoc := ia_loop_snoc alpha beta demand (1 / (K : ℚ)) (K.toNat - 1)
      0 net
    have hloopEq : ia_loop alpha beta demand (1 / (K : ℚ)) K.toNat 0 net
        = ((ia_step alpha beta demand (1 / (K : ℚ)) (0 + (K.toNat - 1))
              netP).1,
           (ia_loop alpha beta demand (1 / (K : ℚ)) (K.toNat - 1) 0 net).2
             ++ [(ia_step alpha beta demand (1 / (K : ℚ))
                   (0 + (K.toNat - 1)) netP).2]) := by
      conv_lhs => rw [hn]
      exact hsnoc
    have hstepPrev : (ia_step alpha beta demand (1 / (K : ℚ))
        (0 + (K.toNat - 1)) netP).1 = netF := by
      rw [← hnetF, hloopEq]
    have hkeyP : (u, v) ∈ keysOf netP.edges := by
      rw [hnetP, keysOf_ia_loop]
      exact hkey
    rcases Option.isSome_iff_exists.mp
      ((alookup_isSome_iff netP.edges (u, v)).mpr hkeyP) with ⟨dPrev, hdPrev⟩
    obtain ⟨q, hq⟩ := ia_step_static alpha beta demand (1 / (K : ℚ))
      (0 + (K.toNat - 1)) netP (u, v)
    refine ⟨dPrev, hdPrev, ?_⟩
    rw [hstepPrev] at hq
    simp only [calculate_link_performance]
    rw [alookup_map_val (fun d0 : IAEdge => d0.cost), hq, hdPrev]
    rfl

/-- Witness for C1's amended statement: the 2-increment scenario run, where
the reported cost of edge A→B is the impedance computed from the flow after
step 1 only. -/
theorem C1_reported_cost_is_prefinal_impedance_witness :
    ∃ dPrev : IAEdge,
      alookup (ia_loop (3 / 20) 4 scenario_demand (1 / ((2 : ℤ) : ℚ))
        ((2 : ℤ).toNat - 1) 0 scenario_ia_net).1.edges (0, 1) = some dPrev ∧
      alookup (calculate_link_performance ia_run2_net) (0, 1)
        = some (ia_edge_impedance (3 / 20) 4 dPrev) :=
  C1_reported_cost_is_prefinal_impedance scenario_ia_net scenario_demand 2
    (3 / 20) 4 ia_run2_flows ia_run2_recs ia_run2_net (by decide) 0 1
    (by decide)

/-- C1 counterexample: with K = 1 on the scenario network, the run loads
flow 50 onto A→B but the reported link performance is 10 — the free-flow
impedance computed before the (only) increment — while the BPR cost of the
final cumulative flow is 10.09375; so the reported cost is NOT recomputed
from the final flow. -/
theorem C1_counterexample :
    ia_run1 = Except.ok ([((0, 1), 50), ((1, 0), 0)],
      (match ia_run1 with
       | Except.ok r => r.2.1
       | Except.error _ => []), ia_run1_net) ∧
    alookup (get_edge_flows ia_run1_net) (0, 1) = some 50 ∧
    alookup (calculate_link_performance ia_run1_net) (0, 1)
      = some (some 10) ∧
    bpr_travel_time (3 / 20) 4 10 100 50 = 323 / 32 ∧
    ¬ (some (some (10 : ℚ))
        = some (some (bpr_travel_time (3 / 20) 4 10 100 50))) := by
  decide

/-- Witness for C4 at the 2-increment scenario run. -/
theorem C4_ia_conservation_witness :
    ia_run2_recs.length = (2 : ℤ).toNat ∧
    (∀ k : EdgeKey, alookup ia_run2_flows k
      = (alookup (IAAssignment_init [0, 1] [(0, 1, 10, 100)]).edges k).map
          (fun _ =>
            (ia_run2_recs.map (fun r => (alookup r.flows k).getD 0)).sum)) ∧
    (∀ r ∈ ia_run2_recs, alookup r.routed (0, 1)
      = some (if stepFound r (0, 1) then 50 * (1 / ((2 : ℤ) : ℚ)) else 0)) ∧
    ((ia_run2_recs.map (fun r => (alookup r.routed (0, 1)).getD 0)).sum
      = ((ia_run2_recs.filter (fun r => stepFound r (0, 1))).length : ℚ)
          * (50 * (1 / ((2 : ℤ) : ℚ)))) ∧
    ((∀ r ∈ ia_run2_recs, stepFound r (0, 1) = true) →
      (ia_run2_recs.map (fun r => (alookup r.routed (0, 1)).getD 0)).sum
        = 50) :=
  C4_ia_conservation [0, 1] [(0, 1, 10, 100)] [((0, 1), 50)] 2 (3 / 20) 4
    ia_run2_flows ia_run2_recs ia_run2_net (by decide) 0 1 50 (by decide)
    (by decide) (by decide)

/-- C9 counterexample: on the scenario network, AON's reported BPR cost of
A→B at flow 50 is 10 * (1 + 0.15 * (50/100)^4) = 10.09375 = 323/32, NOT the
10.0469 the claim computes; and the cost IA with K = 2 finally reports is
BPR(25) = 5123/512 = 10.005859375, not BPR(50). -/
theorem C9_counterexample :
    alookup (aon_calculate_link_performance
      (aon_assign_demand scenario_aon_net scenario_aon_table
        scenario_demand).1 (3 / 20) 4) (0, 1) = some (some (323 / 32)) ∧
    ¬ ((323 / 32 : ℚ) = 100469 / 10000) ∧
    alookup (calculate_link_performance ia_run2_net) (0, 1)
      = some (some (5123 / 512)) ∧
    ¬ ((5123 / 512 : ℚ) = bpr_travel_time (3 / 20) 4 10 100 50) := by
  decide

/-- C9 (amended): the corrected concrete scenario.  AON loads flow 50 on
A→B and reports BPR(50) = 323/32 = 10.09375.  IA with K = 2 routes 25 in
step 1 at impedance 10, and 25 in step 2 at impedance
BPR(25) = 5123/512 = 10.00586, reaching the same final flow 50 as AON; the
cost IA finally reports is the last computed impedance BPR(25) = 5123/512,
while BPR of the final flow, 323/32, equals AON's reported cost. -/
theorem C9_amended_scenario :
    alookup (aon_assign_demand scenario_aon_net scenario_aon_table
      scenario_demand).2.1 (0, 1) = some 50 ∧
    alookup (aon_calculate_link_performance
      (aon_assign_demand scenario_aon_net scenario_aon_table
        scenario_demand).1 (3 / 20) 4) (0, 1) = some (some (323 / 32)) ∧
    bpr_travel_time (3 / 20) 4 10 100 50 = 323 / 32 ∧
    ia_run2 = Except.ok (ia_run2_flows, ia_run2_recs, ia_run2_net) ∧
    ia_run2_recs.map (fun r => (alookup r.link_impedance (0, 1)).getD none)
      = [some 10, some (5123 / 512)] ∧
    ia_run2_recs.map (fun r => (alookup r.flows (0, 1)).getD 0) = [25, 25] ∧
    ia_run2_recs.map (fun r => (alookup r.routed (0, 1)).getD 0) = [25, 25] ∧
    alookup ia_run2_flows (0, 1) = some 50 ∧
    alookup (calculate_link_performance ia_run2_net) (0, 1)
      = some (some (5123 / 512)) ∧
    bpr_travel_time (3 / 20) 4 10 100 25 = 5123 / 512 := by
  decide

/-- C6: the claim says each edge specification adds exactly one directed
edge; the constructors in `IA.py`, `AON.py` and `graph.py` all ALSO add the
reverse edge (the comments beside the `add_edge(v, u, ...)` lines say the
reverse edge is commented out, but it is not), so a single spec produces two
directed edges. -/
theorem C6_reverse_edge_added :
    (alookup (IAAssignment_init [0, 1] [(0, 1, 10, 100)]).edges
      (0, 1)).isSome = true ∧
    (alookup (IAAssignment_init [0, 1] [(0, 1, 10, 100)]).edges
      (1, 0)).isSome = true ∧
    (IAAssignment_init [0, 1] [(0, 1, 10, 100)]).edges.length = 2 ∧
    (alookup (AONAssignment_init [0, 1] [(0, 1, 10, 100)]).edges
      (1, 0)).isSome = true ∧
    (AONAssignment_init [0, 1] [(0, 1, 10, 100)]).edges.length = 2 ∧
    (alookup (get_graph [0, 1] [(0, 1, 10, 100)]).edges (1, 0)).isSome
      = true := by
  decide

/-- C8: `assign_demand` rejects `num_increments <= 0` with the configuration
`ValueError` before its loop runs (the guard is the function's first
statement, so no impedance update, shortest-path computation or flow
mutation has happened — the embedding returns the error without touching the
network); for every `K >= 1` no such error is raised and the run returns a
result. -/
theorem C8_nonpositive_k_rejected (net : IANet) (demand : List (EdgeKey × ℚ))
    (K : ℤ) (alpha : ℚ) (beta : ℕ) :
    (K ≤ 0 → assign_demand net demand K alpha beta
      = Except.error IAErr.valueErr) ∧
    (1 ≤ K → ∃ (flows : List (EdgeKey × ℚ)) (recs : List IncrementRecord)
      (netF : IANet),
      assign_demand net demand K alpha beta
        = Except.ok (flows, recs, netF)) := by
  constructor
  · intro hK
    simp [assign_demand, if_pos hK]
  · intro hK
    have hK2 : ¬ K ≤ 0 := by omega
    refine ⟨get_edge_flows
        (ia_loop alpha beta demand (1 / (K : ℚ)) K.toNat 0 net).1,
      (ia_loop alpha beta demand (1 / (K : ℚ)) K.toNat 0 net).2,
      (ia_loop alpha beta demand (1 / (K : ℚ)) K.toNat 0 net).1, ?_⟩
    simp [assign_demand, if_neg hK2]

/-- BPR lower bound: with non-negative shape parameter and positive free-flow
time, capacity and non-negative flow, the BPR travel time is at least the
free-flow time. -/
theorem bpr_travel_time_ge (alpha : ℚ) (beta : ℕ) (t0 c f : ℚ)
    (ha : 0 ≤ alpha) (ht0 : 0 < t0) (hc : 0 < c) (hf : 0 ≤ f) :
    t0 ≤ bpr_travel_time alpha beta t0 c f := by
  have hp : 0 ≤ (f / c) ^ beta := pow_nonneg (div_nonneg hf hc.le) beta
  have hap : 0 ≤ alpha * (f / c) ^ beta := mul_nonneg ha hp
  have h1 : (1 : ℚ) ≤ 1 + alpha * (f / c) ^ beta := le_add_of_nonneg_right hap
  have := mul_le_mul_of_nonneg_left h1 ht0.le
  simpa [bpr_travel_time] using this

/-- BPR monotonicity in flow. -/
theorem bpr_travel_time_mono (alpha : ℚ) (beta : ℕ) (t0 c f1 f2 : ℚ)
    (ha : 0 ≤ alpha) (ht0 : 0 < t0) (hc : 0 < c) (hf1 : 0 ≤ f1)
    (h12 : f1 ≤ f2) :
    bpr_travel_time alpha beta t0 c f1 ≤ bpr_travel_time alpha beta t0 c f2 := by
  have h1 : f1 / c ≤ f2 / c := (div_le_div_iff_of_pos_right hc).mpr h12
  have hp : (f1 / c) ^ beta ≤ (f2 / c) ^ beta :=
    pow_le_pow_left₀ (div_nonneg hf1 hc.le) h1 beta
  have hap : alpha * (f1 / c) ^ beta ≤ alpha * (f2 / c) ^ beta :=
    mul_le_mul_of_nonneg_left hp ha
  have := mul_le_mul_of_nonneg_left (add_le_add_left hap 1) ht0.le
  simpa [bpr_travel_time] using this

/-- C7: monotone cost — for positive capacity and free-flow time the BPR
travel time with the default parameters (0.15, 4) is bounded below by the
free-flow time and is non-decreasing in the flow; consequently, after
`update_link_impedance` every such edge's current cost is the (finite) BPR
value of its flow, which is at least its free-flow time. -/
theorem C7_monotone_cost (t0 c f1 f2 : ℚ) (net : IANet) (u v : NodeId)
    (d : IAEdge) (ht0 : 0 < t0) (hc : 0 < c) (hf1 : 0 ≤ f1) (h12 : f1 ≤ f2)
    (hd : alookup net.edges (u, v) = some d) (hdc : 0 < d.capacity)
    (hdt : 0 < d.free_flow_time) (hdf : 0 ≤ d.flow) :
    t0 ≤ bpr_travel_time (3 / 20) 4 t0 c f1 ∧
    bpr_travel_time (3 / 20) 4 t0 c f1
      ≤ bpr_travel_time (3 / 20) 4 t0 c f2 ∧
    ∃ d' : IAEdge,
      alookup (update_link_impedance net (3 / 20) 4).edges (u, v) = some d' ∧
      d'.free_flow_time = d.free_flow_time ∧
      d'.cost = some (bpr_travel_time (3 / 20) 4 d.free_flow_time d.capacity
        d.flow) ∧
      d.free_flow_time
        ≤ bpr_travel_time (3 / 20) 4 d.free_flow_time d.capacity d.flow := by
  have ha : (0 : ℚ) ≤ 3 / 20 := by norm_num
  refine ⟨bpr_travel_time_ge (3 / 20) 4 t0 c f1 ha ht0 hc hf1,
    bpr_travel_time_mono (3 / 20) 4 t0 c f1 f2 ha ht0 hc hf1 h12,
    ia_update_edge (3 / 20) 4 d, ?_, rfl, ?_, ?_⟩
  · simp only [update_link_impedance]
    rw [alookup_map_val (ia_update_edge (3 / 20) 4), hd]
    rfl
  · simp only [ia_update_edge, ia_edge_impedance, if_pos hdc]
  · exact bpr_travel_time_ge (3 / 20) 4 d.free_flow_time d.capacity d.flow
      ha hdt hdc hdf

/-- Witness for C7 at the scenario edge A→B (free-flow time 10, capacity
100) and flows 0 ≤ 50. -/
theorem C7_monotone_cost_witness :
    (10 : ℚ) ≤ bpr_travel_time (3 / 20) 4 10 100 0 ∧
    bpr_travel_time (3 / 20) 4 10 100 0
      ≤ bpr_travel_time (3 / 20) 4 10 100 50 ∧
    ∃ d' : IAEdge,
      alookup (update_link_impedance scenario_ia_net (3 / 20) 4).edges
        (0, 1) = some d' ∧
      d'.free_flow_time = (mkIAEdge 10 100).free_flow_time ∧
      d'.cost = some (bpr_travel_time (3 / 20) 4
        (mkIAEdge 10 100).free_flow_time (mkIAEdge 10 100).capacity
        (mkIAEdge 10 100).flow) ∧
      (mkIAEdge 10 100).free_flow_time
        ≤ bpr_travel_time (3 / 20) 4 (mkIAEdge 10 100).free_flow_time
            (mkIAEdge 10 100).capacity (mkIAEdge 10 100).flow :=
  C7_monotone_cost 10 100 0 50 scenario_ia_net 0 1 (mkIAEdge 10 100)
    (by decide) (by decide) (by decide) (by decide) (by decide) (by decide)
    (by decide) (by decide)

/-- C2 (amended): the impedance of `IA.update_link_impedance` and
`AON.calculate_link_performance` is exactly the spec's BPR function —
`t0 * (1 + alpha * (flow/capacity)^beta)` with `+infinity` for
`capacity <= 0` — and, being a pure total function of the edge data, has no
side effect on flow; but the legacy `calculate.get_link_travel_time` is a
DIFFERENT formula `t0 * (1 + Q/C)^2` that raises `ZeroDivisionError` at
`C = 0` instead of returning `+infinity` (it only stays total for
`C ≠ 0`). -/
theorem C2_impedance_refines_spec (alpha : ℚ) (beta : ℕ) (d : IAEdge)
    (net : AONNet) :
    ia_edge_impedance alpha beta d
      = spec_travel_time d.free_flow_time d.capacity d.flow alpha beta ∧
    (∀ (k : EdgeKey) (a : AONEdge), alookup net.edges k = some a →
      alookup (aon_calculate_link_performance net alpha beta) k
        = some (spec_travel_time a.cost a.capacity a.flow alpha beta)) ∧
    (∀ (flow : List (EdgeKey × ℚ)) (t0 C : ℚ) (nb ne : NodeId), C ≠ 0 →
      ∃ q : ℚ, get_link_travel_time flow t0 C nb ne = Except.ok q) ∧
    (∀ (flow : List (EdgeKey × ℚ)) (t0 : ℚ) (nb ne : NodeId) (Q : ℚ),
      alookup flow (nb, ne) = some Q →
      get_link_travel_time flow t0 0 nb ne = Except.error ()) := by
  have hspec : ∀ a : AONEdge, aon_edge_travel_time alpha beta a
      = spec_travel_time a.cost a.capacity a.flow alpha beta := by
    intro a
    by_cases h : a.capacity > 0
    · simp [aon_edge_travel_time, spec_travel_time, h, not_le.mpr h,
        bpr_travel_time]
    · simp [aon_edge_travel_time, spec_travel_time, h, not_lt.mp h]
  refine ⟨?_, fun k a hk => ?_, fun flow t0 C nb ne hC => ?_,
    fun flow t0 nb ne Q hQ => ?_⟩
  · by_cases h : d.capacity > 0
    · simp [ia_edge_impedance, spec_travel_time, h, not_le.mpr h,
        bpr_travel_time]
    · simp [ia_edge_impedance, spec_travel_time, h, not_lt.mp h]
  · simp only [aon_calculate_link_performance]
    rw [alookup_map_val (aon_edge_travel_time alpha beta), hk]
    exact congrArg some (hspec a)
  · simp only [get_link_travel_time]
    cases alookup flow (nb, ne) with
    | none => exact ⟨t0, rfl⟩
    | some Q =>
      exact ⟨t0 * (1 + Q / C) ^ 2, by simp [hC]⟩
  · simp only [get_link_travel_time, hQ]
    simp

/-- C2 counterexample: at free-flow time 10, capacity 100 and flow 50,
`calculate.get_link_travel_time` yields 10 * (1 + 50/100)^2 = 22.5, not the
BPR value 10 * (1 + 0.15 * (50/100)^4) = 10.09375 the claim states; and at
capacity 0 it raises `ZeroDivisionError` instead of returning
`+infinity`. -/
theorem C2_counterexample :
    get_link_travel_time [((0, 1), 50)] 10 100 0 1 = Except.ok (45 / 2) ∧
    spec_travel_time 10 100 50 (3 / 20) 4 = some (323 / 32) ∧
    ¬ ((45 / 2 : ℚ) = 323 / 32) ∧
    get_link_travel_time [((0, 1), 50)] 10 0 0 1 = Except.error () := by
  decide
